import Mathlib

/-! # pearl: a minimal shell (`src/pearl.c`)

A shallow embedding of the parser (`parse`, `init_cmd`), of the pipeline
orchestrator (`run_commands`, `run_command`, `redirect`, `try_close`) and of one
turn of the read-parse-run loop of `main`, followed by theorems about them.

Conventions of the embedding.

* A C string is the list of its characters before the terminating NUL
  (`CString`).  A `char *` that is `NULL` is `none`.
* The caller's array `struct command cmds[MAXCMDS]` and the member
  `char *argv[MAXARGS]` are maps from indices to values.  A store through an index
  is recorded in the map whatever the index is; that an index stays below the
  declared size of the array is a property to be proved, not something the maps
  enforce.
* `strtok_r (·, " ", &saveptr)` is a function from the rest of the line
  (`saveptr`) to the token returned and the new rest of the line.
* Loops whose number of iterations is not syntactically bounded carry a fuel
  argument and return `none` when it runs out; `parse_eq` shows that `parse`
  never does.
* A process is its descriptor table together with the system calls it has made.
  `pipe`, `open` and `fork` succeed; `pipe` and `open` return the lowest free
  descriptors; `fork` hands out fresh positive pids and the child starts as a
  copy of its parent; whether `execvp` succeeds is a parameter (`execOk`).
-/

namespace Pearl

/-! ## Constants and data model -/

/-- The content of a NUL-terminated C string. -/
abbrev CString := List Char

def MAXLINE : Nat := 1024
def MAXARGS : Nat := 64
def MAXCMDS : Nat := 64
def MAXFNAME : Nat := 500

def STDIN_FILENO : Int := 0
def STDOUT_FILENO : Int := 1

/-- The record `struct command`. -/
structure command where
  /-- number of arguments in this command -/
  argc : Nat
  /-- contains the command name and args; `none` is `NULL` -/
  argv : Nat → Option CString
  /-- source file descriptor, initially `STDIN_FILENO` -/
  srcfd : Int
  /-- source file, used with `<` in a command -/
  srcfile : CString
  /-- destination fd, initially `STDOUT_FILENO` -/
  dstfd : Int
  /-- destination file, used with `>` or `>>` -/
  dstfile : CString
  /-- true if `>>` is present in the command -/
  append : Bool

/-- The assignment `a[i] = v` on an array modelled as a map. -/
def store {α : Type} (a : Nat → α) (i : Nat) (v : α) : Nat → α :=
  fun j => if j = i then v else a j

/-- The function `init_cmd`: every member but `argv` is reset. -/
def init_cmd (cmd : command) : command :=
  { cmd with
    argc := 0
    srcfd := STDIN_FILENO
    dstfd := STDOUT_FILENO
    srcfile := []
    dstfile := []
    append := false }

/-! ## The parser -/

/-- The token `"<"`. -/
def tokLT : CString := ['<']
/-- The token `">"`. -/
def tokGT : CString := ['>']
/-- The token `">>"`. -/
def tokGTGT : CString := ['>', '>']
/-- The token `"|"`. -/
def tokPIPE : CString := ['|']

/-- One call `strtok_r (s, " ", &saveptr)` where `s` is the unread rest of the
line: leading spaces are skipped; at the end of the string the result is `NULL`;
otherwise the token runs up to the next space (which is overwritten by NUL and
skipped) or to the end of the string.  Returns the token and the new
`saveptr`. -/
def strtok_r (s : CString) : Option CString × CString :=
  match s.dropWhile (fun c => c == ' ') with
  | [] => (none, [])
  | c :: cs =>
    (some ((c :: cs).takeWhile (fun c => c != ' ')),
     ((c :: cs).dropWhile (fun c => c != ' ')).tail)

/-- The two statements after the loop of `parse`:
`cmd->argv[cmd->argc] = NULL; return ncmds + 1;`. -/
def parse_finish (cmds : Nat → command) (ncmds : Nat) : Int × (Nat → command) :=
  let cmd := cmds ncmds
  ((ncmds : Int) + 1,
   store cmds ncmds { cmd with argv := store cmd.argv cmd.argc none })

/-- The loop of `parse`, entered at its condition with the current `token`
and `saveptr`; the pointer `cmd` is `&cmds[ncmds]` throughout.  The result is
the value returned by `parse` and the caller's array. -/
def parse_loop : Nat → Option CString → CString → (Nat → command) → Nat →
    Option (Int × (Nat → command))
  | 0, _, _, _, _ => none
  | fuel + 1, token, saveptr, cmds, ncmds =>
    let cmd := cmds ncmds
    if cmd.argc < MAXARGS then
      match token with
      | none => some (parse_finish cmds ncmds)
      | some tok =>
        if tok = tokLT then
          match strtok_r saveptr with
          | (none, _) => some (-1, cmds)
          | (some operand, saveptr) =>
            let cmds := store cmds ncmds { cmd with srcfile := operand, srcfd := -1 }
            parse_loop fuel (strtok_r saveptr).1 (strtok_r saveptr).2 cmds ncmds
        else if tok = tokGT then
          match strtok_r saveptr with
          | (none, _) => some (-1, cmds)
          | (some operand, saveptr) =>
            let cmds := store cmds ncmds { cmd with dstfile := operand, dstfd := -1 }
            parse_loop fuel (strtok_r saveptr).1 (strtok_r saveptr).2 cmds ncmds
        else if tok = tokGTGT then
          match strtok_r saveptr with
          | (none, _) => some (-1, cmds)
          | (some operand, saveptr) =>
            let cmds := store cmds ncmds
              { cmd with dstfile := operand, dstfd := -1, append := true }
            parse_loop fuel (strtok_r saveptr).1 (strtok_r saveptr).2 cmds ncmds
        else if tok = tokPIPE then
          let cmds := store cmds ncmds { cmd with argv := store cmd.argv cmd.argc none }
          let ncmds := ncmds + 1
          let cmds := store cmds ncmds (init_cmd (cmds ncmds))
          parse_loop fuel (strtok_r saveptr).1 (strtok_r saveptr).2 cmds ncmds
        else
          -- got arg
          let cmds := store cmds ncmds
            { cmd with argv := store cmd.argv cmd.argc (some tok), argc := cmd.argc + 1 }
          parse_loop fuel (strtok_r saveptr).1 (strtok_r saveptr).2 cmds ncmds
    else some (parse_finish cmds ncmds)

/-- The function `parse`.  Every turn of the loop consumes at least one
character of the line, so `cmdline.length + 1` turns are enough. -/
def parse (cmdline : CString) (cmds : Nat → command) : Option (Int × (Nat → command)) :=
  let cmds := store cmds 0 (init_cmd (cmds 0))
  let cmds := store cmds 0 { cmds 0 with argc := 0 }
  parse_loop (cmdline.length + 1) (strtok_r cmdline).1 (strtok_r cmdline).2 cmds 0

/-- The value returned by `parse`. -/
def parse_ret (cmdline : CString) (cmds : Nat → command) : Option Int :=
  (parse cmdline cmds).map Prod.fst

/-- The arguments `argv[0..argc)` of a stage. -/
def arguments (cmd : command) : List (Option CString) :=
  (List.range cmd.argc).map cmd.argv

/-- An array of stages holding arbitrary data: every `argv` slot points to the
string `"stale"`. -/
def staleCmds : Nat → command := fun _ =>
  { argc := 7, argv := fun _ => some "stale".toList, srcfd := 5, srcfile := "old".toList,
    dstfd := 6, dstfile := "old".toList, append := true }

/-! ## Descriptors, system calls and processes -/

/-- An open file description, the object a descriptor refers to. -/
inductive FileDesc where
  /-- what the shell had open at descriptor `fd` when it was started -/
  | inherited (fd : Nat)
  /-- the read end of the `k`-th pipe created -/
  | pipeRead (k : Nat)
  /-- the write end of the `k`-th pipe created -/
  | pipeWrite (k : Nat)
  /-- the result of `open (path, flags, mode)` -/
  | file (path : CString) (flags : Nat) (mode : Nat)
  deriving DecidableEq, Repr

/-- The descriptor table of a process: entry `fd` is the open file description
descriptor `fd` refers to, `none` when `fd` is closed.  Descriptors beyond the
end of the list are closed. -/
abbrev FdTable := List (Option FileDesc)

/-- The open file description behind descriptor `fd`, `none` when `fd` is not
open (a negative `fd` never is). -/
def lookup (t : FdTable) (fd : Int) : Option FileDesc :=
  if fd < 0 then none else t.getD fd.toNat none

/-- The lowest-numbered descriptor that is not open, which is what `pipe`,
`open` hand out. -/
def lowestFree (t : FdTable) : Nat :=
  t.findIdx (fun e => e.isNone)

/-- The table with entry `n` replaced by `d`. -/
def put (t : FdTable) (n : Nat) (d : Option FileDesc) : FdTable :=
  if n < t.length then t.set n d else t ++ List.replicate (n - t.length) none ++ [d]

/-- A system call made by a process. -/
inductive Event where
  | pipe (r w : Int)
  | fork (pid : Int)
  | close (fd : Int)
  | dup2 (oldfd newfd : Int)
  | open_ (path : CString) (flags : Nat) (mode : Nat) (fd : Int)
  | waitpid (pid : Int)
  deriving DecidableEq, Repr

/-- How a forked child leaves the `if (pid == 0)` branch of `run_command`. -/
inductive ChildEnd where
  /-- `execvp` succeeded: the process now runs the program `argv0`, control never
  comes back to the code of the shell -/
  | exec (argv0 : CString)
  /-- `execvp` failed and returned: the child goes on to `return pid`, so that
  `run_command` returns `ret` to its caller inside the child -/
  | returned (ret : Int)
  deriving DecidableEq, Repr

/-- A process created by `fork` in `run_command (&cmds[stage], ...)`: its pid,
the copy of the stage it worked on, its descriptor table and system calls when
it reached the end of the `if (pid == 0)` branch, and how it left it. -/
structure Child where
  stage : Nat
  pid : Int
  cmd : command
  fds : FdTable
  trace : List Event
  outcome : ChildEnd

/-- The state of a process running the code of the shell. -/
structure Proc where
  /-- its descriptor table -/
  fds : FdTable
  /-- its system calls so far, oldest first -/
  trace : List Event
  /-- number of pipes created so far; the next one is pipe number `npipes` -/
  npipes : Nat
  /-- the pid handed out by the last `fork`; pids are positive -/
  lastpid : Nat
  /-- the children forked so far, oldest first -/
  children : List Child

/-- The call `close (fd)`. -/
def sys_close (st : Proc) (fd : Int) : Proc :=
  { st with
    fds := if 0 ≤ fd ∧ fd.toNat < st.fds.length then st.fds.set fd.toNat none else st.fds
    trace := st.trace ++ [Event.close fd] }

/-- The call `dup2 (oldfd, newfd)`: fails without effect when `oldfd` is not
open or `newfd` is negative, does nothing when both are equal, and otherwise
makes `newfd` refer to the open file description of `oldfd`. -/
def sys_dup2 (st : Proc) (oldfd newfd : Int) : Proc :=
  { st with
    fds := if lookup st.fds oldfd = none ∨ newfd < 0 ∨ oldfd = newfd then st.fds
           else put st.fds newfd.toNat (lookup st.fds oldfd)
    trace := st.trace ++ [Event.dup2 oldfd newfd] }

/-- A successful call `open (path, flags, mode)`: returns the lowest free
descriptor, now referring to the file. -/
def sys_open (st : Proc) (path : CString) (flags mode : Nat) : Int × Proc :=
  let fd := lowestFree st.fds
  ((fd : Int),
   { st with
     fds := put st.fds fd (some (FileDesc.file path flags mode))
     trace := st.trace ++ [Event.open_ path flags mode fd] })

/-- A successful call `pipe (fd)`: returns `(fd[0], fd[1])`, the two lowest free
descriptors, referring to the read end and the write end of a new pipe. -/
def sys_pipe (st : Proc) : Int × Int × Proc :=
  let r := lowestFree st.fds
  let fds := put st.fds r (some (FileDesc.pipeRead st.npipes))
  let w := lowestFree fds
  ((r : Int), (w : Int),
   { st with
     fds := put fds w (some (FileDesc.pipeWrite st.npipes))
     trace := st.trace ++ [Event.pipe r w]
     npipes := st.npipes + 1 })

/-- The call `waitpid (pid, NULL, 0)`. -/
def sys_waitpid (st : Proc) (pid : Int) : Proc :=
  { st with trace := st.trace ++ [Event.waitpid pid] }

/-- Flags and permission bits of `<fcntl.h>` and `<sys/stat.h>` (Linux values). -/
def O_RDONLY : Nat := 0
def O_WRONLY : Nat := 1
def O_CREAT : Nat := 64
def O_TRUNC : Nat := 512
def O_APPEND : Nat := 1024
def S_IRUSR : Nat := 256
def S_IWUSR : Nat := 128
def S_IRGRP : Nat := 32
def S_IROTH : Nat := 4

/-- The function `try_close`. -/
def try_close (st : Proc) (fd fd2 : Int) : Proc :=
  if fd ≠ fd2 then sys_close st fd else st

/-- The flags `redirect` opens the destination file with. -/
def dst_flags (cmd : command) : Nat :=
  let flags := O_WRONLY ||| O_CREAT
  if cmd.append then flags ||| O_APPEND else flags ||| O_TRUNC

/-- The permissions `redirect` creates the destination file with. -/
def file_perm : Nat := S_IRUSR ||| S_IWUSR ||| S_IRGRP ||| S_IROTH

/-- The function `redirect`, with `open` succeeding. -/
def redirect (cmd : command) (st : Proc) : command × Proc :=
  let (cmd, st) :=
    if cmd.srcfile ≠ [] then
      let (fd, st) := sys_open st cmd.srcfile O_RDONLY 0
      ({ cmd with srcfd := fd }, st)
    else (cmd, st)
  let st := sys_dup2 st cmd.srcfd STDIN_FILENO
  let st := try_close st cmd.srcfd STDIN_FILENO
  let (cmd, st) :=
    if cmd.dstfile ≠ [] then
      let (fd, st) := sys_open st cmd.dstfile (dst_flags cmd) file_perm
      ({ cmd with dstfd := fd }, st)
    else (cmd, st)
  let st := sys_dup2 st cmd.dstfd STDOUT_FILENO
  let st := try_close st cmd.dstfd STDOUT_FILENO
  (cmd, st)

/-- The function `run_command` in the process where `fork` has returned 0: the
body of `if (pid == 0)` followed by `return pid`.  `execOk` tells whether
`execvp` finds and starts the program `argv[0]`; when it does not, `execvp`
returns and control falls out of the `if`. -/
def run_command_child (cmd : command) (closepipe : Int) (execOk : CString → Bool)
    (st : Proc) : command × Proc × ChildEnd :=
  let pid : Int := 0
  let st := if closepipe ≠ -1 then sys_close st closepipe else st
  let (cmd, st) := redirect cmd st
  if execOk ((cmd.argv 0).getD []) then (cmd, st, ChildEnd.exec ((cmd.argv 0).getD []))
  else (cmd, st, ChildEnd.returned pid)

/-- The process that `fork` creates in `run_command (&cmds[i], closepipe)`: a
copy of the caller, which runs `run_command_child`; `born` is the state of the
copy when `fork` returns. -/
def forked (cmds : Nat → command) (i : Nat) (closepipe : Int) (execOk : CString → Bool)
    (st : Proc) (pid : Int) : Child :=
  let born : Proc := { st with trace := [], children := [] }
  let (cmd, fin, outcome) := run_command_child (cmds i) closepipe execOk born
  { stage := i, pid := pid, cmd := cmd, fds := fin.fds, trace := fin.trace, outcome := outcome }

/-- The function `run_command (&cmds[i], closepipe)` in the orchestrating
process, `fork` succeeding: the caller gets the pid of the new child. -/
def run_command (cmds : Nat → command) (i : Nat) (closepipe : Int)
    (execOk : CString → Bool) (st : Proc) : Int × Proc :=
  if (cmds i).argv 0 = none then (0, st)
  else
    let pid : Int := (st.lastpid : Int) + 1
    (pid,
     { st with
       trace := st.trace ++ [Event.fork pid]
       lastpid := st.lastpid + 1
       children := st.children ++ [forked cmds i closepipe execOk st pid] })

/-- The loop of `run_commands`, with `n` turns left, at stage `i`, the variable
`in` being `inp`; `pipe` succeeds. -/
def run_loop (execOk : CString → Bool) :
    Nat → Nat → Int → (Nat → command) → Proc → Int × (Nat → command) × Proc
  | 0, _, inp, cmds, st => (inp, cmds, st)
  | n + 1, i, inp, cmds, st =>
    let (fd0, fd1, st) := sys_pipe st
    let cmds := store cmds i { cmds i with srcfd := inp }
    let cmds := store cmds i { cmds i with dstfd := fd1 }
    let (_, st) := run_command cmds i fd0 execOk st
    let st := try_close st fd1 STDOUT_FILENO
    let st := try_close st inp STDIN_FILENO
    -- the next command reads from here
    run_loop execOk n (i + 1) fd0 cmds st

/-- The statements of `run_commands` after its loop, `last` being `ncmds - 1`
and `inp` the value of the variable `in`. -/
def run_last (execOk : CString → Bool) (last : Nat) (inp : Int) (cmds : Nat → command)
    (st : Proc) : (Nat → command) × Proc :=
  let cmds := store cmds last { cmds last with srcfd := inp }
  let cmds := store cmds last { cmds last with dstfd := STDOUT_FILENO }
  let (pid, st) := run_command cmds last (-1) execOk st
  let st := try_close st inp STDIN_FILENO
  let st := if pid ≠ 0 then sys_waitpid st pid else st
  (cmds, st)

/-- The function `run_commands`, for `ncmds ≥ 1` (the only values `main` passes). -/
def run_commands (execOk : CString → Bool) (cmds : Nat → command) (ncmds : Nat)
    (st : Proc) : (Nat → command) × Proc :=
  let (inp, cmds, st) := run_loop execOk (ncmds - 1) 0 STDIN_FILENO cmds st
  run_last execOk (ncmds - 1) inp cmds st

/-- What the call `fgets (cmdline, MAXLINE, stdin)` at the head of a turn of the
loop of `main` has done. -/
structure Fgets where
  /-- the string it has stored in `cmdline`; `none` when it returned `NULL` and
  stored nothing -/
  stored : Option CString
  /-- the value of `ferror (stdin)` after the call -/
  ferror : Bool
  /-- the value of `feof (stdin)` after the call -/
  feof : Bool

/-- How one turn of the loop of `main` ends. -/
inductive Turn where
  /-- the process has called `exit (status)` -/
  | exited (status : Int)
  /-- the string in `cmdline` is empty, so that the store
  `cmdline[strlen (cmdline) - 1] = 0` falls outside the array -/
  | stray_store
  /-- `parse` returned -1: the diagnostic is printed and the loop continues,
  `run_commands` is not called -/
  | parse_failed
  /-- `run_commands` was called and left the array and the process in this state -/
  | ran (cmds : Nat → command) (st : Proc)

/-- One turn of the loop of `main`, from the call of `fgets` on; `cmdline` is
what the array held before the call, `rd` what the call has done.  The process
exits with status -1 when `fgets` returned `NULL` and `ferror (stdin)` holds, and
with status 0 when `feof (stdin)` holds; otherwise the last character of the
string in `cmdline` is cut, the line is parsed, and `run_commands` is called
unless `parse` returned -1.  `none` only if `parse` gives no result. -/
def main_turn (execOk : CString → Bool) (cmdline : CString) (rd : Fgets)
    (cmds : Nat → command) (st : Proc) : Option Turn :=
  if rd.stored = none ∧ rd.ferror = true then some (Turn.exited (-1))
  else if rd.feof = true then some (Turn.exited 0)
  else
    let cmdline := rd.stored.getD cmdline
    if cmdline = [] then some Turn.stray_store
    else
      let cmdline := cmdline.dropLast
      match parse cmdline cmds with
      | none => none
      | some (nparsed, cmds) =>
        if nparsed = -1 then some Turn.parse_failed
        else
          let (cmds, st) := run_commands execOk cmds nparsed.toNat st
          some (Turn.ran cmds st)

/-- A shell started with a terminal on descriptors 0, 1 and 2. -/
def freshShell : Proc :=
  { fds := [some (FileDesc.inherited 0), some (FileDesc.inherited 1), some (FileDesc.inherited 2)]
    trace := [], npipes := 0, lastpid := 100, children := [] }


/-! ## Specification-level vocabulary -/

/-- The space-separated tokens of a line: the maximal runs of characters other
than the space character, in order. -/
def spaceSplit (s : CString) : List CString :=
  (s.splitOn ' ').filter (fun t => t ≠ [])

/-- The whitespace-separated tokens of a line, in the words of the
specification: the maximal runs of non-whitespace characters, whitespace being
space, tab, carriage return and newline. -/
def whitespaceSplit (s : CString) : List CString :=
  (s.splitOnP Char.isWhitespace).filter (fun t => t ≠ [])

/-- The loop of `parse` run over the list of the tokens that the successive
calls of `strtok_r` return (see `parse_loop_eq_parse_toks`). -/
def parse_toks : List CString → (Nat → command) → Nat → Int × (Nat → command)
  | [], cmds, ncmds => parse_finish cmds ncmds
  | tok :: rest, cmds, ncmds =>
    let cmd := cmds ncmds
    if cmd.argc < MAXARGS then
      if tok = tokLT then
        match rest with
        | [] => (-1, cmds)
        | operand :: rest =>
          parse_toks rest (store cmds ncmds { cmd with srcfile := operand, srcfd := -1 }) ncmds
      else if tok = tokGT then
        match rest with
        | [] => (-1, cmds)
        | operand :: rest =>
          parse_toks rest (store cmds ncmds { cmd with dstfile := operand, dstfd := -1 }) ncmds
      else if tok = tokGTGT then
        match rest with
        | [] => (-1, cmds)
        | operand :: rest =>
          parse_toks rest
            (store cmds ncmds { cmd with dstfile := operand, dstfd := -1, append := true }) ncmds
      else if tok = tokPIPE then
        let cmds := store cmds ncmds { cmd with argv := store cmd.argv cmd.argc none }
        parse_toks rest (store cmds (ncmds + 1) (init_cmd (cmds (ncmds + 1)))) (ncmds + 1)
      else
        parse_toks rest
          (store cmds ncmds
            { cmd with argv := store cmd.argv cmd.argc (some tok), argc := cmd.argc + 1 })
          ncmds
    else parse_finish cmds ncmds

/-- What a token or a pair of tokens of the command-line language stands for. -/
inductive Item where
  /-- a command name or argument -/
  | word (w : CString)
  /-- `< path` -/
  | source (path : CString)
  /-- `> path` (`append = false`) or `>> path` (`append = true`) -/
  | destination (path : CString) (append : Bool)
  /-- `|` -/
  | pipe
  deriving DecidableEq, Repr

/-- The command-line language read left to right: `<`, `>` and `>>` take the
next token, whatever it is, as their operand; `|` separates stages; every other
token is a word.  `none` when a redirection operator has no operand. -/
def items : List CString → Option (List Item)
  | [] => some []
  | tok :: rest =>
    if tok = tokLT then
      match rest with
      | [] => none
      | path :: rest => (items rest).map (fun l => Item.source path :: l)
    else if tok = tokGT then
      match rest with
      | [] => none
      | path :: rest => (items rest).map (fun l => Item.destination path false :: l)
    else if tok = tokGTGT then
      match rest with
      | [] => none
      | path :: rest => (items rest).map (fun l => Item.destination path true :: l)
    else if tok = tokPIPE then (items rest).map (fun l => Item.pipe :: l)
    else (items rest).map (fun l => Item.word tok :: l)

/-- The stages of a command line: the runs of items between pipe operators. -/
def stages (its : List Item) : List (List Item) :=
  its.splitOn Item.pipe

/-- The word of an item that is one. -/
def Item.word? : Item → Option CString
  | Item.word w => some w
  | _ => none

/-- The operand of a source redirection. -/
def Item.source? : Item → Option CString
  | Item.source p => some p
  | _ => none

/-- The operand of a destination redirection. -/
def Item.destination? : Item → Option CString
  | Item.destination p _ => some p
  | _ => none

/-- The append flag of a destination redirection. -/
def Item.append? : Item → Option Bool
  | Item.destination _ a => some a
  | _ => none

/-- The words of a stage, in order. -/
def stageArgs (seg : List Item) : List CString :=
  seg.filterMap Item.word?

/-- The operand of the last `<` of a stage, empty if there is none. -/
def stageSource (seg : List Item) : CString :=
  (seg.filterMap Item.source?).getLast?.getD []

/-- The operand of the last `>` or `>>` of a stage, empty if there is none. -/
def stageDest (seg : List Item) : CString :=
  (seg.filterMap Item.destination?).getLast?.getD []

/-- Whether the last `>` or `>>` of a stage is a `>>` (false if there is none). -/
def stageLastAppend (seg : List Item) : Bool :=
  (seg.filterMap Item.append?).getLast?.getD false

/-- Whether some `>>` occurs in a stage. -/
def stageAnyAppend (seg : List Item) : Bool :=
  (seg.filterMap Item.append?).any (fun a => a)

/-- The command line stays within the fixed-size buffers of the shell: at most
`MAXCMDS` stages, fewer than `MAXARGS` arguments in every stage (so that the
terminating `NULL` fits `argv` too), and redirection operands shorter than
`MAXFNAME` (so that they fit `srcfile`, `dstfile` with their terminating NUL). -/
def withinLimits (its : List Item) : Prop :=
  (stages its).length ≤ MAXCMDS ∧
  (∀ seg ∈ stages its, (stageArgs seg).length < MAXARGS) ∧
  (∀ p ∈ its.filterMap Item.source?, p.length < MAXFNAME) ∧
  (∀ p ∈ its.filterMap Item.destination?, p.length < MAXFNAME)

instance (its : List Item) : Decidable (withinLimits its) := by
  unfold withinLimits; infer_instance

/-- The stage `c` of the caller's array is what the items `seg` describe, as
far as `parse` has read them. -/
def Reads (seg : List Item) (c : command) : Prop :=
  c.argc = (stageArgs seg).length ∧
  (∀ k, k < c.argc → c.argv k = (stageArgs seg)[k]?) ∧
  c.srcfile = stageSource seg ∧
  c.dstfile = stageDest seg ∧
  c.append = stageAnyAppend seg

/-- The stage `c` is the finished stage the items `seg` describe: its members
are set from `seg` and `argv` is terminated by `NULL`. -/
def Parsed (seg : List Item) (c : command) : Prop :=
  Reads seg c ∧ c.argv c.argc = none

/-- The redirection operator tokens. -/
def redirectionOperators : List CString := [tokLT, tokGT, tokGTGT]

/-- The operator tokens. -/
def operators : List CString := [tokLT, tokGT, tokGTGT, tokPIPE]

/-- A line of `n` one-letter words `a`, each followed by a space. -/
def manyWords (n : Nat) : CString :=
  (List.replicate n ['a', ' ']).flatten

/-- A line of `n` pipe operators, each followed by a space. -/
def manyPipes (n : Nat) : CString :=
  (List.replicate n ['|', ' ']).flatten

/-- What stage `i` of a pipeline run from the state `st` is to read: the file
named by the stage if there is one, else the standard input of the orchestrator
for the first stage and the read end of the pipe created for the stage before
for the others. -/
def expectedStdin (cmds : Nat → command) (st : Proc) (i : Nat) : Option FileDesc :=
  if (cmds i).srcfile ≠ [] then some (FileDesc.file (cmds i).srcfile O_RDONLY 0)
  else if i = 0 then lookup st.fds STDIN_FILENO
  else some (FileDesc.pipeRead (st.npipes + (i - 1)))

/-- What stage `i` of a pipeline of `n` stages run from the state `st` is to
write to: the file named by the stage if there is one, else the write end of the
pipe created for the stage, and the standard output of the orchestrator for the
last stage. -/
def expectedStdout (cmds : Nat → command) (st : Proc) (n i : Nat) : Option FileDesc :=
  if (cmds i).dstfile ≠ [] then
    some (FileDesc.file (cmds i).dstfile (dst_flags (cmds i)) file_perm)
  else if i + 1 < n then some (FileDesc.pipeWrite (st.npipes + i))
  else lookup st.fds STDOUT_FILENO

/-- The system calls `fork`, if any, of one call of `run_command`. -/
def IsLaunch (l : List Event) : Prop :=
  l = [] ∨ ∃ pid, l = [Event.fork pid]

/-- The call `close (inp)` that `try_close (inp, STDIN_FILENO)` makes, if any. -/
def closeUnlessStdin (inp : Int) : List Event :=
  if inp ≠ STDIN_FILENO then [Event.close inp] else []

/-- The shape of the system calls of the orchestrator for the stages that
remain, `n` of them before the last, the stage at hand reading from `inp`:
for each stage but the last a pipe is created, the stage is launched, the write
end of the pipe is closed at once, then the descriptor the stage read from
(unless it is descriptor 0), and the read end of the pipe is what the next
stage reads from; after the last stage is launched the descriptor it read from
is closed, and the stage is waited for.  Descriptors 0 and 1 are no pipe
ends. -/
def Orchestrated : Nat → Int → List Event → Prop
  | 0, inp, tr =>
    ∃ launch wait, IsLaunch launch ∧ (wait = [] ∨ ∃ pid, wait = [Event.waitpid pid]) ∧
      tr = launch ++ closeUnlessStdin inp ++ wait
  | n + 1, inp, tr =>
    ∃ r w launch rest, IsLaunch launch ∧ r ≠ 0 ∧ r ≠ 1 ∧ w ≠ 0 ∧ w ≠ 1 ∧
      tr = [Event.pipe r w] ++ launch ++ [Event.close w] ++ closeUnlessStdin inp ++ rest ∧
      Orchestrated n r rest

/-- Between two turns of the loop of `run_commands`: the descriptors of the
orchestrator are those it had on entry (`base`), and the descriptor `inp` from
which the next stage reads, which is open and, unless it is descriptor 0, was
closed on entry. -/
structure LoopInv (base : Int → Option FileDesc) (inp : Int) (st : Proc) : Prop where
  open0 : base 0 ≠ none
  open1 : base 1 ≠ none
  same : ∀ x, x ≠ inp ∨ inp = 0 → lookup st.fds x = base x
  inp_open : lookup st.fds inp ≠ none
  inp_fresh : inp ≠ 0 → base inp = none

/-- The array after the two assignments `cmds[i].srcfd = in; cmds[i].dstfd = fd[1]`
of one turn of the loop of `run_commands`. -/
def stage_cmds (cmds : Nat → command) (i : Nat) (inp w : Int) : Nat → command :=
  store (store cmds i { cmds i with srcfd := inp }) i
    { store cmds i { cmds i with srcfd := inp } i with dstfd := w }

/-- The state of the orchestrator after one turn of the loop of `run_commands`
begun in the state `st`. -/
def loop_turn (execOk : CString → Bool) (i : Nat) (inp : Int) (cmds : Nat → command)
    (st : Proc) : Proc :=
  try_close (try_close
    (run_command (stage_cmds cmds i inp (sys_pipe st).2.1) i (sys_pipe st).1 execOk
      (sys_pipe st).2.2).2
    (sys_pipe st).2.1 STDOUT_FILENO) inp STDIN_FILENO

/-- What stage `j` is to read, seen from the turn of the loop for stage `i`,
entered in the state `st` with the variable `in` being `inp`. -/
def stdinFrom (cmds : Nat → command) (st : Proc) (i : Nat) (inp : Int) (j : Nat) :
    Option FileDesc :=
  if (cmds j).srcfile ≠ [] then some (FileDesc.file (cmds j).srcfile O_RDONLY 0)
  else if j = i then lookup st.fds inp
  else some (FileDesc.pipeRead (st.npipes + (j - i - 1)))

/-- What stage `j` is to write to, seen from the turn of the loop for stage `i`,
entered in the state `st`; `out` is the standard output of the orchestrator. -/
def stdoutFrom (cmds : Nat → command) (st : Proc) (out : Option FileDesc) (i last j : Nat) :
    Option FileDesc :=
  if (cmds j).dstfile ≠ [] then
    some (FileDesc.file (cmds j).dstfile (dst_flags (cmds j)) file_perm)
  else if j < last then some (FileDesc.pipeWrite (st.npipes + (j - i)))
  else out

/-- The stages of `cat < in | grep x | wc > out` as `parse` leaves them. -/
def sampleCmds : Nat → command :=
  ((parse "cat < in | grep x | wc > out".toList staleCmds).getD (0, staleCmds)).2

/-! # Theorems -/

/-! ## The tokens of a line -/

theorem splitOnP_takeWhile (p : Char → Bool) (s : List Char) :
    s.splitOnP p = s.takeWhile (fun c => !p c) ::
      (match s.dropWhile (fun c => !p c) with
       | [] => []
       | _ :: r => r.splitOnP p) := by
  induction s with
  | nil => simp
  | cons c s ih =>
    rw [List.splitOnP_cons]
    by_cases h : p c
    · simp [h]
    · simp only [h, Bool.false_eq_true, if_false, Bool.not_false, List.takeWhile_cons,
        List.dropWhile_cons, if_true]
      rw [ih]
      simp [List.modifyHead]

theorem spaceSplit_nil : spaceSplit [] = [] := by
  simp [spaceSplit, List.splitOn]

theorem spaceSplit_space (s : CString) : spaceSplit (' ' :: s) = spaceSplit s := by
  simp [spaceSplit, List.splitOn, List.splitOnP_cons]

theorem spaceSplit_char (c : Char) (s : CString) (h : c ≠ ' ') :
    spaceSplit (c :: s) = (c :: s.takeWhile (fun c => c != ' ')) ::
      spaceSplit (s.dropWhile (fun c => c != ' ')).tail := by
  have e : (fun c : Char => !(c == ' ')) = (fun c => c != ' ') := by
    funext c; simp [bne]
  simp only [spaceSplit, List.splitOn]
  rw [List.splitOnP_cons, splitOnP_takeWhile]
  simp only [beq_iff_eq, h, if_false, e, List.modifyHead]
  rw [List.filter_cons]
  simp only [ne_eq, reduceCtorEq, not_false_eq_true, decide_True, if_true]
  congr 1
  cases hd : s.dropWhile (fun c => c != ' ') with
  | nil => simp [List.splitOnP_nil]
  | cons x r => simp

theorem strtok_r_space (s : CString) : strtok_r (' ' :: s) = strtok_r s := by
  simp [strtok_r]

theorem strtok_r_char (c : Char) (s : CString) (h : c ≠ ' ') :
    strtok_r (c :: s) = (some (c :: s.takeWhile (fun c => c != ' ')),
      (s.dropWhile (fun c => c != ' ')).tail) := by
  simp [strtok_r, h]

/-- A call of `strtok_r` returns `NULL` exactly when no token is left. -/
theorem strtok_r_none (s : CString) : (strtok_r s).1 = none ↔ spaceSplit s = [] := by
  induction s with
  | nil => simp [strtok_r, spaceSplit_nil]
  | cons c s ih =>
    by_cases h : c = ' '
    · subst h; rw [strtok_r_space, spaceSplit_space]; exact ih
    · rw [strtok_r_char c s h, spaceSplit_char c s h]; simp

/-- A call of `strtok_r` that returns a token returns the first token of the
rest of the line and leaves the other tokens, and the rest gets shorter. -/
theorem strtok_r_some (s : CString) (tok : CString) (h : (strtok_r s).1 = some tok) :
    spaceSplit s = tok :: spaceSplit (strtok_r s).2 ∧ (strtok_r s).2.length < s.length := by
  induction s with
  | nil => simp [strtok_r] at h
  | cons c s ih =>
    by_cases hc : c = ' '
    · subst hc
      rw [strtok_r_space] at h ⊢
      rw [spaceSplit_space]
      exact ⟨(ih h).1, Nat.lt_succ_of_lt (ih h).2⟩
    · rw [strtok_r_char c s hc] at h ⊢
      rw [spaceSplit_char c s hc]
      simp only [Option.some.injEq] at h
      subst h
      refine ⟨rfl, ?_⟩
      simp only [List.length_tail, List.length_cons]
      have := (List.dropWhile_sublist (fun c => c != ' ') (l := s)).length_le
      omega

/-- With enough fuel the loop of `parse` returns, and returns what the loop
over the list of tokens does. -/
theorem parse_loop_eq_parse_toks (fuel : Nat) : ∀ (s : CString) (cmds : Nat → command)
    (ncmds : Nat), s.length < fuel →
    parse_loop fuel (strtok_r s).1 (strtok_r s).2 cmds ncmds =
      some (parse_toks (spaceSplit s) cmds ncmds) := by
  induction fuel using Nat.strong_induction_on with
  | _ fuel ih =>
    intro s cmds ncmds hlen
    cases fuel with
    | zero => omega
    | succ fuel =>
      unfold parse_loop
      cases h1 : (strtok_r s).1 with
      | none =>
        rw [(strtok_r_none s).1 h1]
        simp [parse_toks]
      | some tok =>
        obtain ⟨e1, l1⟩ := strtok_r_some s tok h1
        rw [e1]
        generalize (strtok_r s).2 = sp at *
        have key : ∀ (c : Nat → command) (m : Nat),
            parse_loop fuel (strtok_r sp).1 (strtok_r sp).2 c m
              = some (parse_toks (spaceSplit sp) c m) :=
          fun c m => ih fuel (Nat.lt_succ_self _) sp c m (by omega)
        simp only [key]
        rcases hsp : strtok_r sp with ⟨a, b⟩
        cases a with
        | none =>
          have e2 := (strtok_r_none sp).1 (by rw [hsp])
          simp only [e2]
          conv_rhs => rw [parse_toks]
          split_ifs <;> simp [parse_toks]
        | some t2 =>
          obtain ⟨e2, l2⟩ := strtok_r_some sp t2 (by rw [hsp])
          rw [hsp] at e2 l2
          simp only at e2 l2
          have key2 : ∀ (c : Nat → command) (m : Nat),
              parse_loop fuel (strtok_r b).1 (strtok_r b).2 c m
                = some (parse_toks (spaceSplit b) c m) :=
            fun c m => ih fuel (Nat.lt_succ_self _) b c m (by omega)
          simp only [key2, e2]
          conv_rhs => rw [parse_toks]
          split_ifs <;> rfl

/-- The function `parse` always returns, with the result of the loop over the
space-separated tokens of the line. -/
theorem parse_eq_parse_toks (cmdline : CString) (cmds : Nat → command) :
    parse cmdline cmds =
      some (parse_toks (spaceSplit cmdline)
        (store (store cmds 0 (init_cmd (cmds 0))) 0
          { store cmds 0 (init_cmd (cmds 0)) 0 with argc := 0 }) 0) := by
  unfold parse
  exact parse_loop_eq_parse_toks _ _ _ _ (Nat.lt_succ_self _)

theorem parse_eq (cmdline : CString) (cmds : Nat → command) :
    parse cmdline cmds =
      some (parse_toks (spaceSplit cmdline) (store cmds 0 (init_cmd (cmds 0))) 0) := by
  rw [parse_eq_parse_toks]
  congr 2
  funext j
  simp only [store]
  split_ifs <;> rfl

/-! ## The loop of `parse` over a command line within the limits -/

theorem store_same {α : Type} (a : Nat → α) (i : Nat) (v : α) : store a i v i = v := by
  simp [store]

theorem store_other {α : Type} (a : Nat → α) (i j : Nat) (v : α) (h : j ≠ i) :
    store a i v j = a j := by
  simp [store, h]


theorem parse_toks_cons (tok : CString) (rest : List CString) (cmds : Nat → command)
    (ncmds : Nat) :
    parse_toks (tok :: rest) cmds ncmds =
      if (cmds ncmds).argc < MAXARGS then
        if tok = tokLT then
          match rest with
          | [] => (-1, cmds)
          | operand :: rest =>
            parse_toks rest
              (store cmds ncmds { cmds ncmds with srcfile := operand, srcfd := -1 }) ncmds
        else if tok = tokGT then
          match rest with
          | [] => (-1, cmds)
          | operand :: rest =>
            parse_toks rest
              (store cmds ncmds { cmds ncmds with dstfile := operand, dstfd := -1 }) ncmds
        else if tok = tokGTGT then
          match rest with
          | [] => (-1, cmds)
          | operand :: rest =>
            parse_toks rest
              (store cmds ncmds
                { cmds ncmds with dstfile := operand, dstfd := -1, append := true }) ncmds
        else if tok = tokPIPE then
          parse_toks rest
            (store
              (store cmds ncmds
                { cmds ncmds with argv := store (cmds ncmds).argv (cmds ncmds).argc none })
              (ncmds + 1)
              (init_cmd
                (store cmds ncmds
                  { cmds ncmds with argv := store (cmds ncmds).argv (cmds ncmds).argc none }
                  (ncmds + 1))))
            (ncmds + 1)
        else
          parse_toks rest
            (store cmds ncmds
              { cmds ncmds with
                argv := store (cmds ncmds).argv (cmds ncmds).argc (some tok)
                argc := (cmds ncmds).argc + 1 })
            ncmds
      else parse_finish cmds ncmds := by
  cases rest <;> rfl

/-- The loop of `parse` leaves the stages before the current one alone. -/
theorem parse_toks_frame : ∀ (n : Nat) (toks : List CString), toks.length = n →
    ∀ (cmds : Nat → command) (ncmds i : Nat), i < ncmds →
      (parse_toks toks cmds ncmds).2 i = cmds i := by
  intro n
  induction n using Nat.strong_induction_on with
  | _ n ih =>
    intro toks hn cmds ncmds i hi
    have hne : i ≠ ncmds := Nat.ne_of_lt hi
    have hne1 : i ≠ ncmds + 1 := by omega
    cases toks with
    | nil => simp [parse_toks, parse_finish, store_other _ _ _ _ hne]
    | cons tok rest =>
      simp only [List.length_cons] at hn
      have ih1 : ∀ (c : Nat → command) (m : Nat), i < m →
          (parse_toks rest c m).2 i = c i :=
        fun c m hm => ih rest.length (by omega) rest rfl c m i hm
      rw [parse_toks_cons]
      cases rest with
      | nil =>
        simp only [parse_toks, parse_finish]
        split_ifs <;> simp [store_other _ _ _ _ hne, store_other _ _ _ _ hne1]
      | cons t2 rest2 =>
        have ih2 : ∀ (c : Nat → command) (m : Nat), i < m →
            (parse_toks rest2 c m).2 i = c i :=
          fun c m hm => ih rest2.length (by simp at hn; omega) rest2 rfl c m i hm
        simp only [parse_finish]
        split_ifs
        · rw [ih2 _ _ hi, store_other _ _ _ _ hne]
        · rw [ih2 _ _ hi, store_other _ _ _ _ hne]
        · rw [ih2 _ _ hi, store_other _ _ _ _ hne]
        · rw [ih1 _ _ (by omega), store_other _ _ _ _ hne1, store_other _ _ _ _ hne]
        · rw [ih1 _ _ hi, store_other _ _ _ _ hne]
        · simp [store_other _ _ _ _ hne]

theorem reads_init (c : command) : Reads [] (init_cmd c) := by
  simp [Reads, init_cmd, stageArgs, stageSource, stageDest, stageAnyAppend]

theorem reads_source (pre : List Item) (c : command) (f : CString) (h : Reads pre c) :
    Reads (pre ++ [Item.source f]) { c with srcfile := f, srcfd := -1 } := by
  obtain ⟨h1, h2, h3, h4, h5⟩ := h
  refine ⟨?_, ?_, ?_, ?_, ?_⟩ <;>
    simp_all [stageArgs, stageSource, stageDest, stageAnyAppend, Item.word?, Item.source?,
      Item.destination?, Item.append?, List.filterMap_append]

theorem reads_destination (pre : List Item) (c : command) (f : CString) (h : Reads pre c) :
    Reads (pre ++ [Item.destination f false]) { c with dstfile := f, dstfd := -1 } := by
  obtain ⟨h1, h2, h3, h4, h5⟩ := h
  refine ⟨?_, ?_, ?_, ?_, ?_⟩ <;>
    simp_all [stageArgs, stageSource, stageDest, stageAnyAppend, Item.word?, Item.source?,
      Item.destination?, Item.append?, List.filterMap_append]

theorem reads_destination_append (pre : List Item) (c : command) (f : CString)
    (h : Reads pre c) :
    Reads (pre ++ [Item.destination f true])
      { c with dstfile := f, dstfd := -1, append := true } := by
  obtain ⟨h1, h2, h3, h4, h5⟩ := h
  refine ⟨?_, ?_, ?_, ?_, ?_⟩ <;>
    simp_all [stageArgs, stageSource, stageDest, stageAnyAppend, Item.word?, Item.source?,
      Item.destination?, Item.append?, List.filterMap_append]

theorem reads_word (pre : List Item) (c : command) (w : CString) (h : Reads pre c) :
    Reads (pre ++ [Item.word w])
      { c with argv := store c.argv c.argc (some w), argc := c.argc + 1 } := by
  obtain ⟨h1, h2, h3, h4, h5⟩ := h
  refine ⟨?_, ?_, ?_, ?_, ?_⟩
  · simp [stageArgs, List.filterMap_append, Item.word?, h1]
  · intro k hk
    simp only [stageArgs, List.filterMap_append, List.filterMap_cons, Item.word?,
      List.filterMap_nil] at hk ⊢
    by_cases hkc : k = c.argc
    · subst hkc
      rw [store_same]
      rw [h1]
      simp [stageArgs]
    · rw [store_other _ _ _ _ hkc]
      have hk' : k < c.argc := by omega
      rw [h2 k hk']
      rw [List.getElem?_append_left]
      · rfl
      · have := h1 ▸ hk'
        simpa [stageArgs] using this
  · simpa [stageSource, List.filterMap_append, Item.source?] using h3
  · simpa [stageDest, List.filterMap_append, Item.destination?] using h4
  · simpa [stageAnyAppend, List.filterMap_append, Item.append?] using h5

theorem parsed_finish (pre : List Item) (c : command) (h : Reads pre c) :
    Parsed pre { c with argv := store c.argv c.argc none } := by
  obtain ⟨h1, h2, h3, h4, h5⟩ := h
  refine ⟨⟨h1, ?_, h3, h4, h5⟩, ?_⟩
  · intro k hk
    have hkc : k ≠ c.argc := Nat.ne_of_lt hk
    simp only [store_other _ _ _ _ hkc]
    exact h2 k hk
  · simp [store_same]

theorem stages_single (pre : List Item) (hpre : ∀ it ∈ pre, it ≠ Item.pipe) :
    stages pre = [pre] := by
  unfold stages List.splitOn
  exact List.splitOnP_eq_single _ _ (by simpa using hpre)

theorem stages_pipe (pre its : List Item) (hpre : ∀ it ∈ pre, it ≠ Item.pipe) :
    stages (pre ++ Item.pipe :: its) = pre :: stages its := by
  unfold stages List.splitOn
  exact List.splitOnP_first _ _ (by simpa using hpre) Item.pipe (by simp) its

theorem stages_head (pre its : List Item) (hpre : ∀ it ∈ pre, it ≠ Item.pipe) :
    ∃ h t, stages (pre ++ its) = (pre ++ h) :: t := by
  induction pre with
  | nil =>
    cases hs : stages its with
    | nil => exact absurd hs (List.splitOnP_ne_nil _ _)
    | cons h t => exact ⟨h, t, by simpa using hs⟩
  | cons x pre ih =>
    obtain ⟨h, t, e⟩ := ih (fun it hit => hpre it (List.mem_cons_of_mem _ hit))
    have hx : x ≠ Item.pipe := hpre x (List.mem_cons_self _ _)
    refine ⟨h, t, ?_⟩
    unfold stages List.splitOn at e ⊢
    rw [List.cons_append, List.splitOnP_cons, e]
    simp [hx, List.modifyHead]

theorem stageArgs_append (a b : List Item) :
    stageArgs (a ++ b) = stageArgs a ++ stageArgs b := by
  simp [stageArgs, List.filterMap_append]


theorem items_cons (tok : CString) (rest : List CString) :
    items (tok :: rest) =
      if tok = tokLT then
        match rest with
        | [] => none
        | path :: rest => (items rest).map (fun l => Item.source path :: l)
      else if tok = tokGT then
        match rest with
        | [] => none
        | path :: rest => (items rest).map (fun l => Item.destination path false :: l)
      else if tok = tokGTGT then
        match rest with
        | [] => none
        | path :: rest => (items rest).map (fun l => Item.destination path true :: l)
      else if tok = tokPIPE then (items rest).map (fun l => Item.pipe :: l)
      else (items rest).map (fun l => Item.word tok :: l) := by
  cases rest <;> rfl

/-- The loop of `parse` on a command line that stays within the limits: started
in a stage that holds what the items `pre` describe, it reads the items `its`
to the end, returns the number of stages, and leaves every stage finished. -/
theorem parse_toks_spec : ∀ (n : Nat) (toks : List CString), toks.length = n →
    ∀ (its pre : List Item) (cmds : Nat → command) (m : Nat),
      items toks = some its → (∀ it ∈ pre, it ≠ Item.pipe) → Reads pre (cmds m) →
      (∀ seg ∈ stages (pre ++ its), (stageArgs seg).length < MAXARGS) →
      (parse_toks toks cmds m).1 = (m : Int) + (stages (pre ++ its)).length ∧
      ∀ j seg, (stages (pre ++ its))[j]? = some seg →
        Parsed seg ((parse_toks toks cmds m).2 (m + j)) := by
  intro n
  induction n using Nat.strong_induction_on with
  | _ n ih =>
    intro toks hn its pre cmds m hits hpre hreads hlim
    -- the current stage has room for one more argument
    have hroom : (cmds m).argc < MAXARGS := by
      obtain ⟨h, t, e⟩ := stages_head pre its hpre
      have := hlim (pre ++ h) (by rw [e]; exact List.mem_cons_self _ _)
      rw [stageArgs_append, List.length_append] at this
      rw [hreads.1]; omega
    cases toks with
    | nil =>
      simp only [items, Option.some.injEq] at hits
      subst hits
      rw [List.append_nil, stages_single pre hpre]
      refine ⟨by simp [parse_toks, parse_finish], ?_⟩
      intro j seg hj
      cases j with
      | zero =>
        simp only [List.getElem?_cons_zero, Option.some.injEq] at hj
        subst hj
        simp only [parse_toks, parse_finish, Nat.add_zero, store_same]
        exact parsed_finish _ _ hreads
      | succ j => simp at hj
    | cons tok rest =>
      simp only [List.length_cons] at hn
      rw [parse_toks_cons, if_pos hroom]
      -- one item read, the rest by induction
      have step : ∀ (it : Item) (rest' : List CString) (its' : List Item) (c : command),
          rest'.length < n → it ≠ Item.pipe → items rest' = some its' → its = it :: its' →
          Reads (pre ++ [it]) c →
          (parse_toks rest' (store cmds m c) m).1 = (m : Int) + (stages (pre ++ its)).length ∧
          ∀ j seg, (stages (pre ++ its))[j]? = some seg →
            Parsed seg ((parse_toks rest' (store cmds m c) m).2 (m + j)) := by
        intro it rest' its' c hlen hit hits' hcons hr
        have e : pre ++ its = (pre ++ [it]) ++ its' := by rw [hcons]; simp
        rw [e] at hlim ⊢
        refine ih rest'.length hlen rest' rfl its' (pre ++ [it]) (store cmds m c) m hits' ?_ ?_ hlim
        · intro x hx
          rcases List.mem_append.1 hx with hx | hx
          · exact hpre x hx
          · simp only [List.mem_singleton] at hx; rw [hx]; exact hit
        · rw [store_same]; exact hr
      rw [items_cons] at hits
      by_cases h1 : tok = tokLT
      · rw [if_pos h1]
        rw [if_pos h1] at hits
        cases rest with
        | nil => simp at hits
        | cons f rest' =>
          simp only [Option.map_eq_some'] at hits
          obtain ⟨its', hits', hcons⟩ := hits
          exact step _ rest' its' _ (by simp at hn; omega) (by simp) hits' hcons.symm
            (reads_source pre _ f hreads)
      rw [if_neg h1]
      rw [if_neg h1] at hits
      by_cases h2 : tok = tokGT
      · rw [if_pos h2]
        rw [if_pos h2] at hits
        cases rest with
        | nil => simp at hits
        | cons f rest' =>
          simp only [Option.map_eq_some'] at hits
          obtain ⟨its', hits', hcons⟩ := hits
          exact step _ rest' its' _ (by simp at hn; omega) (by simp) hits' hcons.symm
            (reads_destination pre _ f hreads)
      rw [if_neg h2]
      rw [if_neg h2] at hits
      by_cases h3 : tok = tokGTGT
      · rw [if_pos h3]
        rw [if_pos h3] at hits
        cases rest with
        | nil => simp at hits
        | cons f rest' =>
          simp only [Option.map_eq_some'] at hits
          obtain ⟨its', hits', hcons⟩ := hits
          exact step _ rest' its' _ (by simp at hn; omega) (by simp) hits' hcons.symm
            (reads_destination_append pre _ f hreads)
      rw [if_neg h3]
      rw [if_neg h3] at hits
      by_cases h4 : tok = tokPIPE
      · rw [if_pos h4]
        rw [if_pos h4] at hits
        simp only [Option.map_eq_some'] at hits
        obtain ⟨its', hits', hcons⟩ := hits
        subst hcons
        rw [stages_pipe pre its' hpre] at hlim ⊢
        have hm : m + 1 ≠ m := by omega
        generalize hfin : ({ cmds m with
          argv := store (cmds m).argv (cmds m).argc none } : command) = fin
        have hparsed : Parsed pre fin := hfin ▸ parsed_finish _ _ hreads
        obtain ⟨r1, r2⟩ := ih rest.length (by omega) rest rfl its' []
          (store (store cmds m fin) (m + 1) (init_cmd (store cmds m fin (m + 1)))) (m + 1) hits'
          (by simp) (by rw [store_same]; exact reads_init _)
          (by
            intro seg hseg
            exact hlim seg (List.mem_cons_of_mem _ (by simpa using hseg)))
        refine ⟨?_, ?_⟩
        · rw [r1]; simp only [List.nil_append, List.length_cons]; push_cast; ring
        · intro j seg hj
          cases j with
          | zero =>
            simp only [List.getElem?_cons_zero, Option.some.injEq] at hj
            subst hj
            have hf := parse_toks_frame _ rest rfl
              (store (store cmds m fin) (m + 1) (init_cmd (store cmds m fin (m + 1))))
              (m + 1) m (by omega)
            rw [store_other _ _ _ _ (by omega : m ≠ m + 1), store_same] at hf
            show Parsed pre ((parse_toks rest _ (m + 1)).2 m)
            rw [hf]
            exact hparsed
          | succ j =>
            simp only [List.getElem?_cons_succ] at hj
            have := r2 j seg (by simpa using hj)
            rw [show m + (j + 1) = m + 1 + j by omega]
            exact this
      rw [if_neg h4]
      rw [if_neg h4] at hits
      simp only [Option.map_eq_some'] at hits
      obtain ⟨its', hits', hcons⟩ := hits
      exact step _ rest its' _ (by omega) (by simp) hits' hcons.symm
        (reads_word pre _ tok hreads)

theorem arguments_of_reads (seg : List Item) (c : command) (h : Reads seg c) :
    arguments c = (stageArgs seg).map some := by
  obtain ⟨h1, h2, -⟩ := h
  apply List.ext_getElem?
  intro k
  simp only [arguments, List.getElem?_map]
  by_cases hk : k < c.argc
  · rw [List.getElem?_range hk]
    simp only [Option.map_some']
    rw [h2 k hk]
    rw [List.getElem?_eq_getElem (h1 ▸ hk)]
    rfl
  · rw [List.getElem?_eq_none (by simpa using hk), List.getElem?_eq_none (by omega)]
    rfl

theorem length_stages (its : List Item) : (stages its).length = its.count Item.pipe + 1 := by
  induction its with
  | nil => simp [stages, List.splitOn]
  | cons x its ih =>
    unfold stages List.splitOn at ih ⊢
    rw [List.splitOnP_cons]
    by_cases hx : x = Item.pipe
    · subst hx; simp [ih]
    · have hx' : Item.pipe ≠ x := fun e => hx e.symm
      simp only [beq_iff_eq, hx, if_false, List.length_modifyHead, ih]
      rw [List.count_cons_of_ne hx']

theorem mem_of_mem_stages (its : List Item) :
    ∀ seg ∈ stages its, ∀ x ∈ seg, x ∈ its := by
  induction its with
  | nil => simp [stages, List.splitOn]
  | cons y its ih =>
    intro seg hseg x hx
    unfold stages List.splitOn at ih hseg
    rw [List.splitOnP_cons] at hseg
    by_cases hy : y = Item.pipe
    · simp only [hy, beq_self_eq_true, if_true, List.mem_cons] at hseg
      rcases hseg with rfl | hseg
      · simp at hx
      · exact List.mem_cons_of_mem _ (ih seg hseg x hx)
    · simp only [beq_iff_eq, hy, if_false] at hseg
      cases hs : List.splitOnP (fun x => x == Item.pipe) its with
      | nil => rw [hs] at hseg; simp [List.modifyHead] at hseg
      | cons s ss =>
        rw [hs] at hseg ih
        simp only [List.modifyHead, List.mem_cons] at hseg
        rcases hseg with rfl | hseg
        · rcases List.mem_cons.1 hx with rfl | hx
          · exact List.mem_cons_self _ _
          · exact List.mem_cons_of_mem _ (ih s (List.mem_cons_self _ _) x hx)
        · exact List.mem_cons_of_mem _ (ih seg (List.mem_cons_of_mem _ hseg) x hx)

/-- On a command line within the limits `parse` returns the number of stages and
leaves each stage of the caller's array as the items of that stage describe. -/
theorem parse_within_limits (cmdline : CString) (cmds : Nat → command) (its : List Item)
    (hits : items (spaceSplit cmdline) = some its) (hlim : withinLimits its) :
    ∃ cmds', parse cmdline cmds = some (((stages its).length : Int), cmds') ∧
      ∀ j seg, (stages its)[j]? = some seg → Parsed seg (cmds' j) := by
  obtain ⟨r1, r2⟩ := parse_toks_spec _ (spaceSplit cmdline) rfl its []
    (store cmds 0 (init_cmd (cmds 0))) 0 hits (by simp)
    (by rw [store_same]; exact reads_init _) (by simpa using hlim.2.1)
  refine ⟨(parse_toks (spaceSplit cmdline) (store cmds 0 (init_cmd (cmds 0))) 0).2, ?_, ?_⟩
  · rw [parse_eq]
    congr 1
    apply Prod.ext
    · simpa using r1
    · rfl
  · intro j seg hj
    simpa using r2 j seg (by simpa using hj)

/-- A command line without operator tokens is a list of words. -/
theorem items_words (toks : List CString) (h : ∀ op ∈ operators, op ∉ toks) :
    items toks = some (toks.map Item.word) := by
  induction toks with
  | nil => rfl
  | cons tok rest ih =>
    have hrest : ∀ op ∈ operators, op ∉ rest :=
      fun op hop hmem => h op hop (List.mem_cons_of_mem _ hmem)
    have n1 : tok ≠ tokLT := fun e => h tokLT (by simp [operators]) (by simp [e])
    have n2 : tok ≠ tokGT := fun e => h tokGT (by simp [operators]) (by simp [e])
    have n3 : tok ≠ tokGTGT := fun e => h tokGTGT (by simp [operators]) (by simp [e])
    have n4 : tok ≠ tokPIPE := fun e => h tokPIPE (by simp [operators]) (by simp [e])
    rw [items_cons, if_neg n1, if_neg n2, if_neg n3, if_neg n4, ih hrest]
    rfl

theorem stageArgs_words (toks : List CString) : stageArgs (toks.map Item.word) = toks := by
  induction toks with
  | nil => rfl
  | cons tok rest ih => simpa [stageArgs, Item.word?] using ih

theorem stageAnyAppend_iff (seg : List Item) :
    stageAnyAppend seg = true ↔ ∃ p, Item.destination p true ∈ seg := by
  simp only [stageAnyAppend, List.any_eq_true, List.mem_filterMap]
  constructor
  · rintro ⟨a, ⟨it, hit, ha⟩, rfl⟩
    cases it with
    | destination p b =>
      simp only [Item.append?, Option.some.injEq] at ha
      subst ha
      exact ⟨p, hit⟩
    | word w => simp [Item.append?] at ha
    | source p => simp [Item.append?] at ha
    | pipe => simp [Item.append?] at ha
  · rintro ⟨p, hp⟩
    exact ⟨true, ⟨Item.destination p true, hp, rfl⟩, rfl⟩

theorem stageSource_length (its seg : List Item) (hseg : seg ∈ stages its)
    (h : ∀ p ∈ its.filterMap Item.source?, p.length < MAXFNAME) :
    (stageSource seg).length < MAXFNAME := by
  unfold stageSource
  cases hl : (seg.filterMap Item.source?).getLast? with
  | none => simp [MAXFNAME]
  | some p =>
    have hp : p ∈ seg.filterMap Item.source? := List.mem_of_getLast?_eq_some hl
    obtain ⟨it, hit, hpit⟩ := List.mem_filterMap.1 hp
    exact h p (List.mem_filterMap.2 ⟨it, mem_of_mem_stages its seg hseg it hit, hpit⟩)

theorem stageDest_length (its seg : List Item) (hseg : seg ∈ stages its)
    (h : ∀ p ∈ its.filterMap Item.destination?, p.length < MAXFNAME) :
    (stageDest seg).length < MAXFNAME := by
  unfold stageDest
  cases hl : (seg.filterMap Item.destination?).getLast? with
  | none => simp [MAXFNAME]
  | some p =>
    have hp : p ∈ seg.filterMap Item.destination? := List.mem_of_getLast?_eq_some hl
    obtain ⟨it, hit, hpit⟩ := List.mem_filterMap.1 hp
    exact h p (List.mem_filterMap.2 ⟨it, mem_of_mem_stages its seg hseg it hit, hpit⟩)

/-- The loop of `parse` on a command line within the limits that is followed
by one more redirection operator: the operator has no operand and the loop
returns -1. -/
theorem parse_toks_dangling : ∀ (n : Nat) (toks : List CString), toks.length = n →
    ∀ (op : CString) (its pre : List Item) (cmds : Nat → command) (m : Nat),
      op ∈ redirectionOperators →
      items toks = some its → (∀ it ∈ pre, it ≠ Item.pipe) →
      (cmds m).argc = (stageArgs pre).length →
      (∀ seg ∈ stages (pre ++ its), (stageArgs seg).length < MAXARGS) →
      (parse_toks (toks ++ [op]) cmds m).1 = -1 := by
  intro n
  induction n using Nat.strong_induction_on with
  | _ n ih =>
    intro toks hn op its pre cmds m hop hits hpre hargc hlim
    have hroom : (cmds m).argc < MAXARGS := by
      obtain ⟨h, t, e⟩ := stages_head pre its hpre
      have := hlim (pre ++ h) (by rw [e]; exact List.mem_cons_self _ _)
      rw [stageArgs_append, List.length_append] at this
      rw [hargc]; omega
    cases toks with
    | nil =>
      rw [List.nil_append, parse_toks_cons, if_pos hroom]
      simp only [redirectionOperators, List.mem_cons, List.mem_singleton, List.not_mem_nil,
        or_false] at hop
      rcases hop with rfl | rfl | rfl <;> simp [tokLT, tokGT, tokGTGT]
    | cons tok rest =>
      simp only [List.length_cons] at hn
      rw [List.cons_append, parse_toks_cons, if_pos hroom]
      have step : ∀ (it : Item) (rest' : List CString) (its' : List Item) (c : command),
          rest'.length < n → it ≠ Item.pipe → items rest' = some its' → its = it :: its' →
          c.argc = (stageArgs (pre ++ [it])).length →
          (parse_toks (rest' ++ [op]) (store cmds m c) m).1 = -1 := by
        intro it rest' its' c hlen hit hits' hcons hr
        have e : pre ++ its = (pre ++ [it]) ++ its' := by rw [hcons]; simp
        rw [e] at hlim
        refine ih rest'.length hlen rest' rfl op its' (pre ++ [it]) (store cmds m c) m hop
          hits' ?_ ?_ hlim
        · intro x hx
          rcases List.mem_append.1 hx with hx | hx
          · exact hpre x hx
          · simp only [List.mem_singleton] at hx; rw [hx]; exact hit
        · rw [store_same]; exact hr
      rw [items_cons] at hits
      by_cases h1 : tok = tokLT
      · rw [if_pos h1]
        rw [if_pos h1] at hits
        cases rest with
        | nil => simp at hits
        | cons f rest' =>
          simp only [Option.map_eq_some'] at hits
          obtain ⟨its', hits', hcons⟩ := hits
          exact step _ rest' its' _ (by simp at hn; omega) (by simp) hits' hcons.symm
            (by simp [stageArgs_append, stageArgs, Item.word?, hargc])
      rw [if_neg h1]
      rw [if_neg h1] at hits
      by_cases h2 : tok = tokGT
      · rw [if_pos h2]
        rw [if_pos h2] at hits
        cases rest with
        | nil => simp at hits
        | cons f rest' =>
          simp only [Option.map_eq_some'] at hits
          obtain ⟨its', hits', hcons⟩ := hits
          exact step _ rest' its' _ (by simp at hn; omega) (by simp) hits' hcons.symm
            (by simp [stageArgs_append, stageArgs, Item.word?, hargc])
      rw [if_neg h2]
      rw [if_neg h2] at hits
      by_cases h3 : tok = tokGTGT
      · rw [if_pos h3]
        rw [if_pos h3] at hits
        cases rest with
        | nil => simp at hits
        | cons f rest' =>
          simp only [Option.map_eq_some'] at hits
          obtain ⟨its', hits', hcons⟩ := hits
          exact step _ rest' its' _ (by simp at hn; omega) (by simp) hits' hcons.symm
            (by simp [stageArgs_append, stageArgs, Item.word?, hargc])
      rw [if_neg h3]
      rw [if_neg h3] at hits
      by_cases h4 : tok = tokPIPE
      · rw [if_pos h4]
        rw [if_pos h4] at hits
        simp only [Option.map_eq_some'] at hits
        obtain ⟨its', hits', hcons⟩ := hits
        subst hcons
        rw [stages_pipe pre its' hpre] at hlim
        exact ih rest.length (by omega) rest rfl op its' [] _ (m + 1) hop hits'
          (by simp) (by rw [store_same]; simp [init_cmd, stageArgs])
          (by
            intro seg hseg
            exact hlim seg (List.mem_cons_of_mem _ (by simpa using hseg)))
      rw [if_neg h4]
      rw [if_neg h4] at hits
      simp only [Option.map_eq_some'] at hits
      obtain ⟨its', hits', hcons⟩ := hits
      exact step _ rest its' _ (by omega) (by simp) hits' hcons.symm
        (by simp [stageArgs_append, stageArgs, Item.word?, hargc])

/-- A command line whose last token is not a redirection operator is complete:
every redirection operator in it has an operand. -/
theorem items_isSome_of_getLast : ∀ (n : Nat) (toks : List CString), toks.length = n →
    (∀ op ∈ redirectionOperators, toks.getLast? ≠ some op) → ∃ its, items toks = some its := by
  intro n
  induction n using Nat.strong_induction_on with
  | _ n ih =>
    intro toks hn hlast
    cases toks with
    | nil => exact ⟨[], rfl⟩
    | cons tok rest =>
      simp only [List.length_cons] at hn
      have hrest : rest ≠ [] → ∃ its, items rest = some its := by
        intro hne
        refine ih rest.length (by omega) rest rfl ?_
        intro op hop
        have := hlast op hop
        cases rest with
        | nil => exact absurd rfl hne
        | cons g rest' => simpa using this
      have hred : ∀ (mk : CString → Item),
          tok ∈ redirectionOperators →
          ∃ its, (match rest with
            | [] => none
            | path :: rest => (items rest).map (fun l => mk path :: l)) = some its := by
        intro mk htok
        cases rest with
        | nil => exact absurd rfl (hlast tok htok)
        | cons f rest' =>
          cases rest' with
          | nil => exact ⟨[mk f], rfl⟩
          | cons g rest'' =>
            obtain ⟨its, hits⟩ := ih (g :: rest'').length (by simp at hn ⊢; omega)
              (g :: rest'') rfl (by
                intro op hop
                have := hlast op hop
                simpa using this)
            exact ⟨mk f :: its, by simp [hits]⟩
      rw [items_cons]
      by_cases h1 : tok = tokLT
      · rw [if_pos h1]; exact hred _ (by simp [redirectionOperators, h1])
      rw [if_neg h1]
      by_cases h2 : tok = tokGT
      · rw [if_pos h2]; exact hred _ (by simp [redirectionOperators, h2])
      rw [if_neg h2]
      by_cases h3 : tok = tokGTGT
      · rw [if_pos h3]; exact hred _ (by simp [redirectionOperators, h3])
      rw [if_neg h3]
      have hword : ∀ (it : Item), ∃ its, (items rest).map (fun l => it :: l) = some its := by
        intro it
        cases hr : rest with
        | nil => exact ⟨[it], rfl⟩
        | cons g rest' =>
          obtain ⟨its, hits⟩ := hrest (by simp [hr])
          rw [hr] at hits
          exact ⟨it :: its, by simp [hits]⟩
      by_cases h4 : tok = tokPIPE
      · rw [if_pos h4]; exact hword _
      rw [if_neg h4]; exact hword _

theorem parse_ret_eq (cmdline : CString) (cmds : Nat → command) :
    parse_ret cmdline cmds =
      some (parse_toks (spaceSplit cmdline) (store cmds 0 (init_cmd (cmds 0))) 0).1 := by
  simp [parse_ret, parse_eq]

/-! ## Descriptor tables -/

theorem lookup_neg (t : FdTable) (fd : Int) (h : fd < 0) : lookup t fd = none := by
  simp [lookup, h]

theorem lookup_natCast (t : FdTable) (n : Nat) : lookup t (n : Int) = t.getD n none := by
  simp [lookup]

theorem getD_put (t : FdTable) (n k : Nat) (d : Option FileDesc) :
    (put t n d).getD k none = if k = n then d else t.getD k none := by
  unfold put
  by_cases hn : n < t.length
  · rw [if_pos hn]
    by_cases hk : k = n
    · subst hk; simp [List.getD_eq_getElem?_getD, hn]
    · simp [List.getD_eq_getElem?_getD, hk, List.getElem?_set, Ne.symm hk]
  · rw [if_neg hn]
    simp only [List.getD_eq_getElem?_getD]
    by_cases hk : k = n
    · subst hk
      rw [if_pos rfl, List.getElem?_append_right (by simp; omega)]
      simp
      have : k - (t.length + (k - t.length)) = 0 := by omega
      simp [this]
    · rw [if_neg hk]
      by_cases hk1 : k < t.length
      · rw [List.append_assoc, List.getElem?_append_left hk1]
      · by_cases hk2 : k < n
        · rw [List.getElem?_append_left (by simp; omega),
            List.getElem?_append_right (by omega)]
          rw [List.getElem?_eq_none (by omega : t.length ≤ k)]
          simp only [List.getElem?_replicate]
          split_ifs <;> rfl
        · rw [List.getElem?_eq_none (by simp; omega), List.getElem?_eq_none (by omega)]

theorem lookup_put (t : FdTable) (n : Nat) (d : Option FileDesc) (fd : Int) :
    lookup (put t n d) fd = if fd = (n : Int) then d else lookup t fd := by
  by_cases h : fd < 0
  · rw [lookup_neg _ _ h, lookup_neg _ _ h, if_neg (by omega)]
  · obtain ⟨k, rfl⟩ := Int.eq_ofNat_of_zero_le (by omega : 0 ≤ fd)
    rw [lookup_natCast, lookup_natCast, getD_put]
    simp

theorem lookup_lowestFree (t : FdTable) : lookup t (lowestFree t : Int) = none := by
  rw [lookup_natCast]
  unfold lowestFree
  rw [List.getD_eq_getElem?_getD]
  by_cases h : List.findIdx (fun e => e.isNone) t < t.length
  · have := List.findIdx_getElem (w := h)
    rw [List.getElem?_eq_getElem h]
    simpa using this
  · rw [List.getElem?_eq_none (by omega)]
    rfl

theorem lookup_close (st : Proc) (fd x : Int) :
    lookup (sys_close st fd).fds x = if x = fd then none else lookup st.fds x := by
  unfold sys_close
  simp only
  by_cases h : 0 ≤ fd ∧ fd.toNat < st.fds.length
  · rw [if_pos h]
    have e : st.fds.set fd.toNat none = put st.fds fd.toNat none := by
      simp [put, h.2]
    rw [e, lookup_put]
    have : ((fd.toNat : Nat) : Int) = fd := Int.toNat_of_nonneg h.1
    rw [this]
  · rw [if_neg h]
    by_cases hx : x = fd
    · rw [if_pos hx, hx]
      by_cases h0 : fd < 0
      · exact lookup_neg _ _ h0
      · obtain ⟨k, rfl⟩ := Int.eq_ofNat_of_zero_le (by omega : 0 ≤ fd)
        rw [lookup_natCast, List.getD_eq_getElem?_getD, List.getElem?_eq_none]
        · rfl
        · simp at h; omega
    · rw [if_neg hx]

theorem lookup_dup2 (st : Proc) (oldfd newfd x : Int) :
    lookup (sys_dup2 st oldfd newfd).fds x =
      if lookup st.fds oldfd = none ∨ newfd < 0 ∨ oldfd = newfd then lookup st.fds x
      else if x = newfd then lookup st.fds oldfd else lookup st.fds x := by
  unfold sys_dup2
  simp only
  by_cases h : lookup st.fds oldfd = none ∨ newfd < 0 ∨ oldfd = newfd
  · rw [if_pos h, if_pos h]
  · rw [if_neg h, if_neg h, lookup_put]
    have : ((newfd.toNat : Nat) : Int) = newfd := Int.toNat_of_nonneg (by omega)
    rw [this]

theorem sys_open_fd (st : Proc) (path : CString) (flags mode : Nat) :
    (sys_open st path flags mode).1 = (lowestFree st.fds : Int) := rfl

theorem lookup_open (st : Proc) (path : CString) (flags mode : Nat) (x : Int) :
    lookup (sys_open st path flags mode).2.fds x =
      if x = (sys_open st path flags mode).1 then some (FileDesc.file path flags mode)
      else lookup st.fds x := by
  simp only [sys_open, lookup_put]

theorem open_fresh (st : Proc) (path : CString) (flags mode : Nat) :
    lookup st.fds (sys_open st path flags mode).1 = none :=
  lookup_lowestFree st.fds

theorem lookup_pipe (st : Proc) (x : Int) :
    lookup (sys_pipe st).2.2.fds x =
      if x = (sys_pipe st).2.1 then some (FileDesc.pipeWrite st.npipes)
      else if x = (sys_pipe st).1 then some (FileDesc.pipeRead st.npipes)
      else lookup st.fds x := by
  simp only [sys_pipe, lookup_put]

theorem pipe_fresh (st : Proc) :
    lookup st.fds (sys_pipe st).1 = none ∧ lookup st.fds (sys_pipe st).2.1 = none ∧
      (sys_pipe st).1 ≠ (sys_pipe st).2.1 := by
  have h1 : lookup st.fds (sys_pipe st).1 = none := lookup_lowestFree st.fds
  have h2 := lookup_lowestFree (put st.fds (lowestFree st.fds) (some (FileDesc.pipeRead st.npipes)))
  rw [lookup_put] at h2
  have hne : (sys_pipe st).1 ≠ (sys_pipe st).2.1 := by
    intro e
    simp only [sys_pipe] at e
    rw [← e] at h2
    simp at h2
  refine ⟨h1, ?_, hne⟩
  simp only [sys_pipe] at hne ⊢
  rw [if_neg (Ne.symm hne)] at h2
  exact h2

/-! ## Redirection in the child -/

/-- The pair `dup2 (fd, target); try_close (fd, target)` on an open `fd`:
afterwards `target` refers to what `fd` referred to, and `fd`, if different,
is closed. -/
theorem install_lookup (st : Proc) (fd target : Int) (ht : 0 ≤ target)
    (hopen : lookup st.fds fd ≠ none) (x : Int) :
    lookup (try_close (sys_dup2 st fd target) fd target).fds x =
      if x = target then lookup st.fds fd else if x = fd then none else lookup st.fds x := by
  unfold try_close
  by_cases h : fd = target
  · subst h
    simp only [ne_eq, not_true_eq_false, if_false, lookup_dup2, or_true, if_true]
    split_ifs with h1 <;> simp_all
  · have hc : ¬(lookup st.fds fd = none ∨ target < 0 ∨ fd = target) := by
      rintro (h1 | h1 | h1)
      · exact hopen h1
      · omega
      · exact h h1
    rw [if_pos h, lookup_close, lookup_dup2, if_neg hc]
    by_cases hx : x = target
    · subst hx
      have : x ≠ fd := fun e => h e.symm
      simp [this]
    · simp [hx]

/-- What `redirect` leaves on descriptors 0 and 1: the file named by the stage if
there is one, and otherwise what `srcfd`, `dstfd` referred to. -/
theorem redirect_wiring (cmd : command) (st : Proc)
    (h0 : cmd.srcfile ≠ [] → lookup st.fds 0 ≠ none)
    (hs : cmd.srcfile = [] → lookup st.fds cmd.srcfd ≠ none)
    (hd : cmd.dstfile = [] → lookup st.fds cmd.dstfd ≠ none ∧ cmd.dstfd ≠ 0 ∧
      (cmd.srcfile = [] → cmd.dstfd ≠ cmd.srcfd)) :
    lookup (redirect cmd st).2.fds 0 =
      (if cmd.srcfile ≠ [] then some (FileDesc.file cmd.srcfile O_RDONLY 0)
       else lookup st.fds cmd.srcfd) ∧
    lookup (redirect cmd st).2.fds 1 =
      (if cmd.dstfile ≠ [] then some (FileDesc.file cmd.dstfile (dst_flags cmd) file_perm)
       else lookup st.fds cmd.dstfd) := by
  by_cases hsrc : cmd.srcfile = []
  · have hsopen := hs hsrc
    have e1 : ∀ x, lookup (try_close (sys_dup2 st cmd.srcfd 0) cmd.srcfd 0).fds x =
        if x = 0 then lookup st.fds cmd.srcfd else if x = cmd.srcfd then none
        else lookup st.fds x :=
      install_lookup st cmd.srcfd 0 (by decide) hsopen
    by_cases hdst : cmd.dstfile = []
    · obtain ⟨hdopen, hd0, hne⟩ := hd hdst
      have hne := hne hsrc
      have hopen2 : lookup (try_close (sys_dup2 st cmd.srcfd 0) cmd.srcfd 0).fds cmd.dstfd
          ≠ none := by
        rw [e1, if_neg hd0, if_neg hne]; exact hdopen
      have e2 := install_lookup _ cmd.dstfd 1 (by decide) hopen2
      simp only [redirect, hsrc, hdst, ne_eq, not_true_eq_false, if_false,
        STDIN_FILENO, STDOUT_FILENO]
      constructor
      · rw [e2, if_neg (by decide), if_neg (fun e => hd0 e.symm), e1, if_pos rfl]
      · rw [e2, if_pos rfl, e1, if_neg hd0, if_neg hne]
    · generalize ho : sys_open (try_close (sys_dup2 st cmd.srcfd 0) cmd.srcfd 0)
        cmd.dstfile (dst_flags cmd) file_perm = op
      have hfresh := open_fresh (try_close (sys_dup2 st cmd.srcfd 0) cmd.srcfd 0)
        cmd.dstfile (dst_flags cmd) file_perm
      have elook := lookup_open (try_close (sys_dup2 st cmd.srcfd 0) cmd.srcfd 0)
        cmd.dstfile (dst_flags cmd) file_perm
      rw [ho] at hfresh elook
      have hd0 : op.1 ≠ 0 := by
        intro e
        rw [e, e1, if_pos rfl] at hfresh
        exact hsopen hfresh
      have hopen2 : lookup op.2.fds op.1 ≠ none := by
        rw [elook, if_pos rfl]; simp
      have e2 := install_lookup op.2 op.1 1 (by decide) hopen2
      have hred : (redirect cmd st).2 = try_close (sys_dup2 op.2 op.1 1) op.1 1 := by
        simp only [redirect, hsrc, hdst, ne_eq, not_true_eq_false, not_false_eq_true, if_false,
          if_true, STDIN_FILENO, STDOUT_FILENO, ho]
      rw [hred]
      constructor
      · rw [e2, if_neg (by decide), if_neg (fun e => hd0 e.symm), elook,
          if_neg (fun e => hd0 e.symm), e1, if_pos rfl, if_neg (by simp [hsrc])]
      · rw [e2, if_pos rfl, elook, if_pos rfl, if_pos hdst]
  · have h0' := h0 hsrc
    generalize ho : sys_open st cmd.srcfile O_RDONLY 0 = os
    have hfresh := open_fresh st cmd.srcfile O_RDONLY 0
    have elook := lookup_open st cmd.srcfile O_RDONLY 0
    rw [ho] at hfresh elook
    have hs0 : os.1 ≠ 0 := by
      intro e
      rw [e] at hfresh
      exact h0' hfresh
    have hopen1 : lookup os.2.fds os.1 ≠ none := by
      rw [elook, if_pos rfl]; simp
    have e1 := install_lookup os.2 os.1 0 (by decide) hopen1
    by_cases hdst : cmd.dstfile = []
    · obtain ⟨hdopen, hd0, -⟩ := hd hdst
      have hds : cmd.dstfd ≠ os.1 := by
        intro e
        rw [e] at hdopen
        exact hdopen hfresh
      have hopen2 : lookup (try_close (sys_dup2 os.2 os.1 0) os.1 0).fds cmd.dstfd ≠ none := by
        rw [e1, if_neg hd0, if_neg hds, elook, if_neg hds]; exact hdopen
      have e2 := install_lookup _ cmd.dstfd 1 (by decide) hopen2
      have hred : (redirect cmd st).2 =
          try_close (sys_dup2 (try_close (sys_dup2 os.2 os.1 0) os.1 0) cmd.dstfd 1)
            cmd.dstfd 1 := by
        simp only [redirect, hsrc, hdst, ne_eq, not_true_eq_false, not_false_eq_true, if_false,
          if_true, STDIN_FILENO, STDOUT_FILENO, ho]
      rw [hred]
      constructor
      · rw [e2, if_neg (by decide), if_neg (fun e => hd0 e.symm), e1, if_pos rfl, elook,
          if_pos rfl, if_pos hsrc]
      · rw [e2, if_pos rfl, e1, if_neg hd0, if_neg hds, elook, if_neg hds,
          if_neg (by simp [hdst])]
    · generalize ho2 : sys_open (try_close (sys_dup2 os.2 os.1 0) os.1 0)
        cmd.dstfile (dst_flags cmd) file_perm = op
      have hfresh2 := open_fresh (try_close (sys_dup2 os.2 os.1 0) os.1 0)
        cmd.dstfile (dst_flags cmd) file_perm
      have elook2 := lookup_open (try_close (sys_dup2 os.2 os.1 0) os.1 0)
        cmd.dstfile (dst_flags cmd) file_perm
      rw [ho2] at hfresh2 elook2
      have hd0 : op.1 ≠ 0 := by
        intro e
        rw [e, e1, if_pos rfl, elook, if_pos rfl] at hfresh2
        simp at hfresh2
      have hopen2 : lookup op.2.fds op.1 ≠ none := by
        rw [elook2, if_pos rfl]; simp
      have e2 := install_lookup op.2 op.1 1 (by decide) hopen2
      have hred : (redirect cmd st).2 = try_close (sys_dup2 op.2 op.1 1) op.1 1 := by
        simp only [redirect, hsrc, hdst, ne_eq, not_true_eq_false, not_false_eq_true, if_false,
          if_true, STDIN_FILENO, STDOUT_FILENO, ho, dst_flags] at ho2 ⊢
        rw [ho2]
      rw [hred]
      constructor
      · rw [e2, if_neg (by decide), if_neg (fun e => hd0 e.symm), elook2,
          if_neg (fun e => hd0 e.symm), e1, if_pos rfl, elook, if_pos rfl, if_pos hsrc]
      · rw [e2, if_pos rfl, elook2, if_pos rfl, if_pos hdst]

/-! ## One call of `run_command` -/

theorem run_command_empty (cmds : Nat → command) (i : Nat) (closepipe : Int)
    (execOk : CString → Bool) (st : Proc) (h : (cmds i).argv 0 = none) :
    run_command cmds i closepipe execOk st = (0, st) := by
  simp [run_command, h]

theorem run_command_fds (cmds : Nat → command) (i : Nat) (closepipe : Int)
    (execOk : CString → Bool) (st : Proc) :
    (run_command cmds i closepipe execOk st).2.fds = st.fds := by
  unfold run_command; split_ifs <;> rfl

theorem run_command_npipes (cmds : Nat → command) (i : Nat) (closepipe : Int)
    (execOk : CString → Bool) (st : Proc) :
    (run_command cmds i closepipe execOk st).2.npipes = st.npipes := by
  unfold run_command; split_ifs <;> rfl

theorem run_command_trace (cmds : Nat → command) (i : Nat) (closepipe : Int)
    (execOk : CString → Bool) (st : Proc) :
    (run_command cmds i closepipe execOk st).2.trace =
      st.trace ++ (if (cmds i).argv 0 = none then []
        else [Event.fork ((st.lastpid : Int) + 1)]) := by
  unfold run_command; split_ifs <;> simp

theorem run_command_children (cmds : Nat → command) (i : Nat) (closepipe : Int)
    (execOk : CString → Bool) (st : Proc) :
    (run_command cmds i closepipe execOk st).2.children =
      st.children ++ (if (cmds i).argv 0 = none then []
        else [forked cmds i closepipe execOk st ((st.lastpid : Int) + 1)]) := by
  unfold run_command; split_ifs <;> simp

theorem run_command_pid (cmds : Nat → command) (i : Nat) (closepipe : Int)
    (execOk : CString → Bool) (st : Proc) :
    (run_command cmds i closepipe execOk st).1 =
      if (cmds i).argv 0 = none then 0 else (st.lastpid : Int) + 1 := by
  unfold run_command; split_ifs <;> rfl

theorem forked_stage (cmds : Nat → command) (i : Nat) (closepipe : Int)
    (execOk : CString → Bool) (st : Proc) (pid : Int) :
    (forked cmds i closepipe execOk st pid).stage = i := rfl

theorem forked_fds (cmds : Nat → command) (i : Nat) (closepipe : Int)
    (execOk : CString → Bool) (st : Proc) (pid : Int) :
    (forked cmds i closepipe execOk st pid).fds =
      (redirect (cmds i)
        (if closepipe ≠ -1 then sys_close { st with trace := [], children := [] } closepipe
         else { st with trace := [], children := [] })).2.fds := by
  unfold forked run_command_child
  simp only
  split_ifs <;> rfl

/-- The descriptors 0 and 1 of the child forked for a stage, when `redirect`
has run: the file named by the stage if there is one, and otherwise what
`srcfd`, `dstfd` refer to in the orchestrator. -/
theorem forked_wiring (cmds : Nat → command) (i : Nat) (closepipe : Int)
    (execOk : CString → Bool) (st : Proc) (pid : Int)
    (hcp : closepipe = -1 ∨
      (closepipe ≠ 0 ∧ closepipe ≠ (cmds i).srcfd ∧ closepipe ≠ (cmds i).dstfd))
    (h0 : lookup st.fds 0 ≠ none)
    (hs : (cmds i).srcfile = [] → lookup st.fds (cmds i).srcfd ≠ none)
    (hd : (cmds i).dstfile = [] → lookup st.fds (cmds i).dstfd ≠ none ∧ (cmds i).dstfd ≠ 0 ∧
      ((cmds i).srcfile = [] → (cmds i).dstfd ≠ (cmds i).srcfd)) :
    lookup (forked cmds i closepipe execOk st pid).fds 0 =
      (if (cmds i).srcfile ≠ [] then some (FileDesc.file (cmds i).srcfile O_RDONLY 0)
       else lookup st.fds (cmds i).srcfd) ∧
    lookup (forked cmds i closepipe execOk st pid).fds 1 =
      (if (cmds i).dstfile ≠ [] then
        some (FileDesc.file (cmds i).dstfile (dst_flags (cmds i)) file_perm)
       else lookup st.fds (cmds i).dstfd) := by
  rw [forked_fds]
  by_cases hc : closepipe = -1
  · rw [if_neg (by simp [hc])]
    exact redirect_wiring (cmds i) { st with trace := [], children := [] } (fun _ => h0) hs hd
  · rw [if_pos hc]
    obtain ⟨c0, c1, c2⟩ := hcp.resolve_left hc
    have e : ∀ x, lookup (sys_close { st with trace := [], children := [] } closepipe).fds x =
        if x = closepipe then none else lookup st.fds x := fun x => lookup_close _ _ _
    have := redirect_wiring (cmds i)
      (sys_close { st with trace := [], children := [] } closepipe)
      (fun _ => by rw [e, if_neg (fun h => c0 h.symm)]; exact h0)
      (fun h => by rw [e, if_neg (fun h' => c1 h'.symm)]; exact hs h)
      (fun h => by
        rw [e, if_neg (fun h' => c2 h'.symm)]
        exact hd h)
    have e1 : lookup (sys_close { st with trace := [], children := [] } closepipe).fds
        (cmds i).srcfd = lookup st.fds (cmds i).srcfd := by
      rw [e, if_neg (fun h' => c1 h'.symm)]
    have e2 : lookup (sys_close { st with trace := [], children := [] } closepipe).fds
        (cmds i).dstfd = lookup st.fds (cmds i).dstfd := by
      rw [e, if_neg (fun h' => c2 h'.symm)]
    rw [e1, e2] at this
    exact this

/-! ## The state of the orchestrator after `try_close` -/

theorem try_close_trace (st : Proc) (fd fd2 : Int) :
    (try_close st fd fd2).trace = st.trace ++ (if fd ≠ fd2 then [Event.close fd] else []) := by
  unfold try_close sys_close; split_ifs <;> simp

theorem try_close_children (st : Proc) (fd fd2 : Int) :
    (try_close st fd fd2).children = st.children := by
  unfold try_close sys_close; split_ifs <;> rfl

theorem try_close_npipes (st : Proc) (fd fd2 : Int) :
    (try_close st fd fd2).npipes = st.npipes := by
  unfold try_close sys_close; split_ifs <;> rfl

theorem lookup_try_close (st : Proc) (fd fd2 x : Int) :
    lookup (try_close st fd fd2).fds x =
      if fd ≠ fd2 ∧ x = fd then none else lookup st.fds x := by
  unfold try_close
  by_cases h : fd = fd2
  · simp [h]
  · rw [if_pos h, lookup_close]
    simp [h]

theorem sys_pipe_trace (st : Proc) :
    (sys_pipe st).2.2.trace = st.trace ++ [Event.pipe (sys_pipe st).1 (sys_pipe st).2.1] := rfl

theorem sys_pipe_children (st : Proc) : (sys_pipe st).2.2.children = st.children := rfl

theorem sys_pipe_npipes (st : Proc) : (sys_pipe st).2.2.npipes = st.npipes + 1 := rfl

theorem run_loop_succ (execOk : CString → Bool) (n i : Nat) (inp : Int)
    (cmds : Nat → command) (st : Proc) :
    run_loop execOk (n + 1) i inp cmds st =
      run_loop execOk n (i + 1) (sys_pipe st).1 (stage_cmds cmds i inp (sys_pipe st).2.1)
        (loop_turn execOk i inp cmds st) := rfl

theorem stage_cmds_same (cmds : Nat → command) (i : Nat) (inp w : Int) :
    stage_cmds cmds i inp w i = { cmds i with srcfd := inp, dstfd := w } := by
  simp [stage_cmds, store]

theorem stage_cmds_other (cmds : Nat → command) (i j : Nat) (inp w : Int) (h : j ≠ i) :
    stage_cmds cmds i inp w j = cmds j := by
  simp [stage_cmds, store, h]

theorem stage_cmds_fields (cmds : Nat → command) (i j : Nat) (inp w : Int) :
    (stage_cmds cmds i inp w j).argv = (cmds j).argv ∧
    (stage_cmds cmds i inp w j).srcfile = (cmds j).srcfile ∧
    (stage_cmds cmds i inp w j).dstfile = (cmds j).dstfile ∧
    (stage_cmds cmds i inp w j).append = (cmds j).append := by
  by_cases h : j = i
  · subst h; rw [stage_cmds_same]; simp
  · rw [stage_cmds_other _ _ _ _ _ h]; simp

/-! ## One turn of the loop of `run_commands` -/

theorem inv_ne_one {base : Int → Option FileDesc} {inp : Int} {st : Proc}
    (hinv : LoopInv base inp st) : inp ≠ 1 := by
  intro e
  by_cases h0 : inp = 0
  · omega
  · have := hinv.inp_fresh h0
    rw [e] at this
    exact hinv.open1 this

theorem inv_lookup0 {base : Int → Option FileDesc} {inp : Int} {st : Proc}
    (hinv : LoopInv base inp st) : lookup st.fds 0 = base 0 :=
  hinv.same 0 (by by_cases h : inp = 0 <;> [exact Or.inr h; exact Or.inl (fun e => h e.symm)])

theorem inv_lookup1 {base : Int → Option FileDesc} {inp : Int} {st : Proc}
    (hinv : LoopInv base inp st) : lookup st.fds 1 = base 1 :=
  hinv.same 1 (Or.inl (fun e => inv_ne_one hinv e.symm))

/-- The two ends of the pipe created in a turn of the loop are neither 0, nor 1,
nor the descriptor the stage reads from. -/
theorem loop_fresh {base : Int → Option FileDesc} {inp : Int} {st : Proc}
    (hinv : LoopInv base inp st) :
    (sys_pipe st).1 ≠ 0 ∧ (sys_pipe st).1 ≠ 1 ∧ (sys_pipe st).1 ≠ inp ∧
    (sys_pipe st).2.1 ≠ 0 ∧ (sys_pipe st).2.1 ≠ 1 ∧ (sys_pipe st).2.1 ≠ inp ∧
    (sys_pipe st).1 ≠ (sys_pipe st).2.1 ∧
    base (sys_pipe st).1 = none ∧ base (sys_pipe st).2.1 = none := by
  obtain ⟨f1, f2, f3⟩ := pipe_fresh st
  have h0 : lookup st.fds 0 ≠ none := by rw [inv_lookup0 hinv]; exact hinv.open0
  have h1 : lookup st.fds 1 ≠ none := by rw [inv_lookup1 hinv]; exact hinv.open1
  have r0 : (sys_pipe st).1 ≠ 0 := fun e => h0 (e ▸ f1)
  have r1 : (sys_pipe st).1 ≠ 1 := fun e => h1 (e ▸ f1)
  have ri : (sys_pipe st).1 ≠ inp := fun e => hinv.inp_open (e ▸ f1)
  have w0 : (sys_pipe st).2.1 ≠ 0 := fun e => h0 (e ▸ f2)
  have w1 : (sys_pipe st).2.1 ≠ 1 := fun e => h1 (e ▸ f2)
  have wi : (sys_pipe st).2.1 ≠ inp := fun e => hinv.inp_open (e ▸ f2)
  refine ⟨r0, r1, ri, w0, w1, wi, f3, ?_, ?_⟩
  · rw [← hinv.same _ (Or.inl ri)]; exact f1
  · rw [← hinv.same _ (Or.inl wi)]; exact f2

theorem lookup_loop_turn (execOk : CString → Bool) (i : Nat) (inp : Int)
    (cmds : Nat → command) (st : Proc) (x : Int) :
    lookup (loop_turn execOk i inp cmds st).fds x =
      if inp ≠ 0 ∧ x = inp then none
      else if (sys_pipe st).2.1 ≠ 1 ∧ x = (sys_pipe st).2.1 then none
      else if x = (sys_pipe st).2.1 then some (FileDesc.pipeWrite st.npipes)
      else if x = (sys_pipe st).1 then some (FileDesc.pipeRead st.npipes)
      else lookup st.fds x := by
  unfold loop_turn
  rw [lookup_try_close, lookup_try_close, run_command_fds, lookup_pipe]
  rfl

/-- A turn of the loop of `run_commands` keeps the invariant, with the read end
of the new pipe as the descriptor the next stage reads from. -/
theorem loop_turn_inv (execOk : CString → Bool) (i : Nat) (cmds : Nat → command)
    {base : Int → Option FileDesc} {inp : Int} {st : Proc} (hinv : LoopInv base inp st) :
    LoopInv base (sys_pipe st).1 (loop_turn execOk i inp cmds st) ∧
    lookup (loop_turn execOk i inp cmds st).fds (sys_pipe st).1 =
      some (FileDesc.pipeRead st.npipes) := by
  obtain ⟨r0, r1, ri, w0, w1, wi, hrw, br, bw⟩ := loop_fresh hinv
  have hr : lookup (loop_turn execOk i inp cmds st).fds (sys_pipe st).1 =
      some (FileDesc.pipeRead st.npipes) := by
    rw [lookup_loop_turn, if_neg (fun h => ri h.2), if_neg (fun h => hrw h.2), if_neg hrw,
      if_pos rfl]
  refine ⟨⟨hinv.open0, hinv.open1, ?_, ?_, fun _ => br⟩, hr⟩
  · intro x hx
    have hxr : x ≠ (sys_pipe st).1 := hx.resolve_right r0
    rw [lookup_loop_turn]
    by_cases h1 : inp ≠ 0 ∧ x = inp
    · rw [if_pos h1, h1.2, hinv.inp_fresh h1.1]
    · rw [if_neg h1]
      by_cases h2 : x = (sys_pipe st).2.1
      · rw [if_pos ⟨w1, h2⟩, h2, bw]
      · rw [if_neg (fun h => h2 h.2), if_neg h2, if_neg hxr]
        apply hinv.same
        by_cases h3 : inp = 0
        · exact Or.inr h3
        · exact Or.inl (fun e => h1 ⟨h3, e⟩)
  · rw [hr]; simp

theorem loop_turn_npipes (execOk : CString → Bool) (i : Nat) (inp : Int)
    (cmds : Nat → command) (st : Proc) :
    (loop_turn execOk i inp cmds st).npipes = st.npipes + 1 := by
  unfold loop_turn
  rw [try_close_npipes, try_close_npipes, run_command_npipes, sys_pipe_npipes]

theorem loop_turn_children (execOk : CString → Bool) (i : Nat) (inp : Int)
    (cmds : Nat → command) (st : Proc) :
    (loop_turn execOk i inp cmds st).children =
      st.children ++ (if (cmds i).argv 0 = none then []
        else [forked (stage_cmds cmds i inp (sys_pipe st).2.1) i (sys_pipe st).1 execOk
          (sys_pipe st).2.2 (((sys_pipe st).2.2.lastpid : Int) + 1)]) := by
  unfold loop_turn
  rw [try_close_children, try_close_children, run_command_children, sys_pipe_children,
    (stage_cmds_fields cmds i i inp _).1]

theorem loop_turn_trace (execOk : CString → Bool) (i : Nat) (inp : Int)
    (cmds : Nat → command) (st : Proc) (hw : (sys_pipe st).2.1 ≠ 1) :
    ∃ launch, IsLaunch launch ∧
      (loop_turn execOk i inp cmds st).trace =
        st.trace ++ ([Event.pipe (sys_pipe st).1 (sys_pipe st).2.1] ++ launch ++
          [Event.close (sys_pipe st).2.1] ++ closeUnlessStdin inp) := by
  unfold loop_turn
  rw [try_close_trace, try_close_trace, run_command_trace, sys_pipe_trace]
  refine ⟨if (stage_cmds cmds i inp (sys_pipe st).2.1 i).argv 0 = none then []
    else [Event.fork (((sys_pipe st).2.2.lastpid : Int) + 1)], ?_, ?_⟩
  · unfold IsLaunch
    split_ifs
    · exact Or.inl rfl
    · exact Or.inr ⟨_, rfl⟩
  · simp only [STDOUT_FILENO, ne_eq, hw, not_false_eq_true, if_true, closeUnlessStdin,
      List.append_assoc]

/-! ## The loop of `run_commands` -/

/-- The loop of `run_commands` keeps the invariant, creates one pipe a turn, and
changes only the members `srcfd` and `dstfd` of the stages. -/
theorem run_loop_inv (execOk : CString → Bool) (base : Int → Option FileDesc) :
    ∀ (n i : Nat) (inp : Int) (cmds : Nat → command) (st : Proc), LoopInv base inp st →
      LoopInv base (run_loop execOk n i inp cmds st).1 (run_loop execOk n i inp cmds st).2.2 ∧
      (run_loop execOk n i inp cmds st).2.2.npipes = st.npipes + n ∧
      ∀ j, ((run_loop execOk n i inp cmds st).2.1 j).argv = (cmds j).argv ∧
        ((run_loop execOk n i inp cmds st).2.1 j).srcfile = (cmds j).srcfile ∧
        ((run_loop execOk n i inp cmds st).2.1 j).dstfile = (cmds j).dstfile ∧
        ((run_loop execOk n i inp cmds st).2.1 j).append = (cmds j).append := by
  intro n
  induction n with
  | zero =>
    intro i inp cmds st hinv
    exact ⟨hinv, rfl, fun j => ⟨rfl, rfl, rfl, rfl⟩⟩
  | succ n ih =>
    intro i inp cmds st hinv
    rw [run_loop_succ]
    obtain ⟨h1, h2, h3⟩ := ih (i + 1) (sys_pipe st).1 (stage_cmds cmds i inp (sys_pipe st).2.1)
      (loop_turn execOk i inp cmds st) (loop_turn_inv execOk i cmds hinv).1
    refine ⟨h1, ?_, ?_⟩
    · rw [h2, loop_turn_npipes]; omega
    · intro j
      obtain ⟨a, b, c, e⟩ := h3 j
      obtain ⟨a', b', c', e'⟩ := stage_cmds_fields cmds i j inp (sys_pipe st).2.1
      exact ⟨a.trans a', b.trans b', c.trans c', e.trans e'⟩

theorem run_commands_eq (execOk : CString → Bool) (cmds : Nat → command) (ncmds : Nat)
    (st : Proc) :
    run_commands execOk cmds ncmds st =
      run_last execOk (ncmds - 1) (run_loop execOk (ncmds - 1) 0 STDIN_FILENO cmds st).1
        (run_loop execOk (ncmds - 1) 0 STDIN_FILENO cmds st).2.1
        (run_loop execOk (ncmds - 1) 0 STDIN_FILENO cmds st).2.2 := rfl

theorem run_last_eq (execOk : CString → Bool) (last : Nat) (inp : Int)
    (cmds : Nat → command) (st : Proc) :
    run_last execOk last inp cmds st =
      (stage_cmds cmds last inp STDOUT_FILENO,
       if (run_command (stage_cmds cmds last inp STDOUT_FILENO) last (-1) execOk st).1 ≠ 0 then
         sys_waitpid
           (try_close (run_command (stage_cmds cmds last inp STDOUT_FILENO) last (-1) execOk st).2
             inp STDIN_FILENO)
           (run_command (stage_cmds cmds last inp STDOUT_FILENO) last (-1) execOk st).1
       else
         try_close (run_command (stage_cmds cmds last inp STDOUT_FILENO) last (-1) execOk st).2
           inp STDIN_FILENO) := rfl

theorem try_close_fds_congr (st st' : Proc) (fd fd2 : Int) (h : st.fds = st'.fds) :
    (try_close st fd fd2).fds = (try_close st' fd fd2).fds := by
  unfold try_close sys_close
  rw [h]
  split_ifs <;> simp [h]

theorem run_last_fds (execOk : CString → Bool) (last : Nat) (inp : Int)
    (cmds : Nat → command) (st : Proc) :
    (run_last execOk last inp cmds st).2.fds =
      (try_close st inp STDIN_FILENO).fds := by
  rw [run_last_eq]
  simp only
  split_ifs
  · exact try_close_fds_congr _ _ _ _ (run_command_fds _ _ _ _ _)
  · exact try_close_fds_congr _ _ _ _ (run_command_fds _ _ _ _ _)

/-- After the last stage the orchestrator has the descriptors it had on entry. -/
theorem run_last_restores (execOk : CString → Bool) (last : Nat) (cmds : Nat → command)
    {base : Int → Option FileDesc} {inp : Int} {st : Proc} (hinv : LoopInv base inp st)
    (x : Int) :
    lookup (run_last execOk last inp cmds st).2.fds x = base x := by
  rw [run_last_fds, lookup_try_close]
  by_cases h : inp ≠ STDIN_FILENO ∧ x = inp
  · rw [if_pos h, h.2, hinv.inp_fresh h.1]
  · rw [if_neg h]
    apply hinv.same
    by_cases h3 : inp = 0
    · exact Or.inr h3
    · exact Or.inl (fun e => h ⟨h3, e⟩)

theorem loopInv_entry (st : Proc) (h0 : lookup st.fds 0 ≠ none) (h1 : lookup st.fds 1 ≠ none) :
    LoopInv (lookup st.fds) STDIN_FILENO st :=
  ⟨h0, h1, fun _ _ => rfl, h0, fun h => absurd rfl h⟩

theorem run_last_trace (execOk : CString → Bool) (last : Nat) (inp : Int)
    (cmds : Nat → command) (st : Proc) :
    ∃ tr, (run_last execOk last inp cmds st).2.trace = st.trace ++ tr ∧
      Orchestrated 0 inp tr := by
  rw [run_last_eq]
  simp only
  have hl : IsLaunch (if (stage_cmds cmds last inp STDOUT_FILENO last).argv 0 = none then []
      else [Event.fork ((st.lastpid : Int) + 1)]) := by
    unfold IsLaunch
    split_ifs
    · exact Or.inl rfl
    · exact Or.inr ⟨_, rfl⟩
  split_ifs
  · simp only [sys_waitpid, try_close_trace, run_command_trace, List.append_assoc]
    refine ⟨_, rfl, _,
      [Event.waitpid (run_command (stage_cmds cmds last inp STDOUT_FILENO) last (-1) execOk st).1],
      hl, Or.inr ⟨_, rfl⟩, ?_⟩
    simp only [closeUnlessStdin, List.append_assoc]
  · simp only [try_close_trace, run_command_trace, List.append_assoc]
    exact ⟨_, rfl, _, [], hl, Or.inl rfl, by simp only [closeUnlessStdin, List.append_nil]⟩

/-- The system calls of the orchestrator from a turn of the loop to the end of
`run_commands` have the shape `Orchestrated`. -/
theorem run_trace (execOk : CString → Bool) (base : Int → Option FileDesc) (last : Nat) :
    ∀ (n i : Nat) (inp : Int) (cmds : Nat → command) (st : Proc), LoopInv base inp st →
      ∃ tr, (run_last execOk last (run_loop execOk n i inp cmds st).1
          (run_loop execOk n i inp cmds st).2.1
          (run_loop execOk n i inp cmds st).2.2).2.trace = st.trace ++ tr ∧
        Orchestrated n inp tr := by
  intro n
  induction n with
  | zero =>
    intro i inp cmds st _
    exact run_last_trace execOk last inp cmds st
  | succ n ih =>
    intro i inp cmds st hinv
    rw [run_loop_succ]
    obtain ⟨r0, r1, ri, w0, w1, wi, hrw, br, bw⟩ := loop_fresh hinv
    obtain ⟨tr, h1, h2⟩ := ih (i + 1) (sys_pipe st).1
      (stage_cmds cmds i inp (sys_pipe st).2.1)
      (loop_turn execOk i inp cmds st) (loop_turn_inv execOk i cmds hinv).1
    obtain ⟨launch, hl, htr⟩ := loop_turn_trace execOk i inp cmds st w1
    refine ⟨[Event.pipe (sys_pipe st).1 (sys_pipe st).2.1] ++ launch ++
      [Event.close (sys_pipe st).2.1] ++ closeUnlessStdin inp ++ tr, ?_, ?_⟩
    · rw [h1, htr]; simp only [List.append_assoc]
    · exact ⟨_, _, launch, tr, hl, r0, r1, w0, w1, rfl, h2⟩

/-! ## The children of the orchestrator -/

theorem run_last_children (execOk : CString → Bool) (last : Nat) (inp : Int)
    (cmds : Nat → command) (st : Proc) :
    (run_last execOk last inp cmds st).2.children =
      st.children ++ (if (cmds last).argv 0 = none then []
        else [forked (stage_cmds cmds last inp STDOUT_FILENO) last (-1) execOk st
          ((st.lastpid : Int) + 1)]) := by
  rw [run_last_eq]
  simp only
  split_ifs <;>
    simp_all [sys_waitpid, try_close_children, run_command_children,
      (stage_cmds_fields cmds last last inp STDOUT_FILENO).1]

theorem dst_flags_congr (c c' : command) (h : c.append = c'.append) :
    dst_flags c = dst_flags c' := by
  simp [dst_flags, h]

/-- The child forked in a turn of the loop reads from the file named by the
stage or else from the descriptor `inp`, and writes to the file named by the
stage or else to the write end of the new pipe. -/
theorem loop_turn_wiring (execOk : CString → Bool) (i : Nat) (cmds : Nat → command)
    {base : Int → Option FileDesc} {inp : Int} {st : Proc} (hinv : LoopInv base inp st)
    (pid : Int) :
    lookup (forked (stage_cmds cmds i inp (sys_pipe st).2.1) i (sys_pipe st).1 execOk
        (sys_pipe st).2.2 pid).fds 0 =
      (if (cmds i).srcfile ≠ [] then some (FileDesc.file (cmds i).srcfile O_RDONLY 0)
       else lookup st.fds inp) ∧
    lookup (forked (stage_cmds cmds i inp (sys_pipe st).2.1) i (sys_pipe st).1 execOk
        (sys_pipe st).2.2 pid).fds 1 =
      (if (cmds i).dstfile ≠ [] then
        some (FileDesc.file (cmds i).dstfile (dst_flags (cmds i)) file_perm)
       else some (FileDesc.pipeWrite st.npipes)) := by
  obtain ⟨r0, r1, ri, w0, w1, wi, hrw, br, bw⟩ := loop_fresh hinv
  have hsame := stage_cmds_same cmds i inp (sys_pipe st).2.1
  have l0 : lookup (sys_pipe st).2.2.fds 0 = lookup st.fds 0 := by
    rw [lookup_pipe, if_neg (fun e => w0 e.symm), if_neg (fun e => r0 e.symm)]
  have li : lookup (sys_pipe st).2.2.fds inp = lookup st.fds inp := by
    rw [lookup_pipe, if_neg (fun e => wi e.symm), if_neg (fun e => ri e.symm)]
  have lw : lookup (sys_pipe st).2.2.fds (sys_pipe st).2.1 =
      some (FileDesc.pipeWrite st.npipes) := by
    rw [lookup_pipe, if_pos rfl]
  have h := forked_wiring (stage_cmds cmds i inp (sys_pipe st).2.1) i (sys_pipe st).1 execOk
    (sys_pipe st).2.2 pid
    (Or.inr ⟨r0, by rw [hsame]; exact ri, by rw [hsame]; exact hrw⟩)
    (by rw [l0, inv_lookup0 hinv]; exact hinv.open0)
    (fun _ => by rw [hsame]; simp only; rw [li]; exact hinv.inp_open)
    (fun _ => by
      rw [hsame]; simp only
      exact ⟨by rw [lw]; simp, w0, fun _ => wi⟩)
  rw [hsame] at h
  simp only at h
  rw [li, lw] at h
  have hf : dst_flags { cmds i with srcfd := inp, dstfd := (sys_pipe st).2.1 } =
      dst_flags (cmds i) := dst_flags_congr _ _ rfl
  rw [hf] at h
  exact h

/-- The child forked for the last stage reads from the file named by the stage
or else from the descriptor `inp`, and writes to the file named by the stage or
else to the standard output of the orchestrator. -/
theorem run_last_wiring (execOk : CString → Bool) (last : Nat) (cmds : Nat → command)
    {base : Int → Option FileDesc} {inp : Int} {st : Proc} (hinv : LoopInv base inp st)
    (pid : Int) :
    lookup (forked (stage_cmds cmds last inp STDOUT_FILENO) last (-1) execOk st pid).fds 0 =
      (if (cmds last).srcfile ≠ [] then some (FileDesc.file (cmds last).srcfile O_RDONLY 0)
       else lookup st.fds inp) ∧
    lookup (forked (stage_cmds cmds last inp STDOUT_FILENO) last (-1) execOk st pid).fds 1 =
      (if (cmds last).dstfile ≠ [] then
        some (FileDesc.file (cmds last).dstfile (dst_flags (cmds last)) file_perm)
       else base 1) := by
  have hsame := stage_cmds_same cmds last inp STDOUT_FILENO
  have h := forked_wiring (stage_cmds cmds last inp STDOUT_FILENO) last (-1) execOk st pid
    (Or.inl rfl)
    (by rw [inv_lookup0 hinv]; exact hinv.open0)
    (fun _ => by rw [hsame]; exact hinv.inp_open)
    (fun _ => by
      rw [hsame]; simp only [STDOUT_FILENO]
      exact ⟨by rw [inv_lookup1 hinv]; exact hinv.open1, by decide,
        fun _ e => inv_ne_one hinv e.symm⟩)
  rw [hsame] at h
  simp only [STDOUT_FILENO] at h
  rw [inv_lookup1 hinv] at h
  have hf : dst_flags { cmds last with srcfd := inp, dstfd := 1 } =
      dst_flags (cmds last) := dst_flags_congr _ _ rfl
  rw [hf] at h
  exact h

/-- The children forked from a turn of the loop to the end of `run_commands`:
one for each stage whose `argv[0]` is not `NULL`, in order, each wired as
`stdinFrom`, `stdoutFrom` say. -/
theorem run_children (execOk : CString → Bool) (base : Int → Option FileDesc) (last : Nat) :
    ∀ (n i : Nat) (inp : Int) (cmds : Nat → command) (st : Proc), LoopInv base inp st →
      i + n = last →
      ∃ new, (run_last execOk last (run_loop execOk n i inp cmds st).1
          (run_loop execOk n i inp cmds st).2.1
          (run_loop execOk n i inp cmds st).2.2).2.children = st.children ++ new ∧
        new.map Child.stage =
          (List.range' i (n + 1)).filter (fun j => ((cmds j).argv 0).isSome) ∧
        ∀ c ∈ new,
          lookup c.fds 0 = stdinFrom cmds st i inp c.stage ∧
          lookup c.fds 1 = stdoutFrom cmds st (base 1) i last c.stage := by
  intro n
  induction n with
  | zero =>
    intro i inp cmds st hinv hlast
    simp only [Nat.add_zero] at hlast
    subst hlast
    refine ⟨_, run_last_children execOk i inp cmds st, ?_, ?_⟩
    · by_cases h : (cmds i).argv 0 = none
      · simp [h, List.range'_one]
      · have : ((cmds i).argv 0).isSome = true := by
          cases hc : (cmds i).argv 0 with
          | none => exact absurd hc h
          | some v => rfl
        simp [h, this, forked_stage]
    · intro c hc
      by_cases h : (cmds i).argv 0 = none
      · simp [h] at hc
      · rw [if_neg h, List.mem_singleton] at hc
        subst hc
        obtain ⟨w0, w1⟩ := run_last_wiring execOk i cmds hinv ((st.lastpid : Int) + 1)
        rw [forked_stage]
        constructor
        · rw [w0]; simp [stdinFrom]
        · rw [w1]; simp [stdoutFrom]
  | succ n ih =>
    intro i inp cmds st hinv hlast
    rw [run_loop_succ]
    obtain ⟨hinv', hr⟩ := loop_turn_inv execOk i cmds hinv
    obtain ⟨new', h1, h2, h3⟩ := ih (i + 1) (sys_pipe st).1
      (stage_cmds cmds i inp (sys_pipe st).2.1) (loop_turn execOk i inp cmds st) hinv'
      (by omega)
    have hargv : ∀ j, ((stage_cmds cmds i inp (sys_pipe st).2.1 j).argv 0).isSome =
        ((cmds j).argv 0).isSome := fun j => by
      rw [(stage_cmds_fields cmds i j inp (sys_pipe st).2.1).1]
    simp only [hargv] at h2
    refine ⟨(if (cmds i).argv 0 = none then []
        else [forked (stage_cmds cmds i inp (sys_pipe st).2.1) i (sys_pipe st).1 execOk
          (sys_pipe st).2.2 (((sys_pipe st).2.2.lastpid : Int) + 1)]) ++ new', ?_, ?_, ?_⟩
    · rw [h1, loop_turn_children, List.append_assoc]
    · have hrange : List.range' i (n + 1 + 1) = i :: List.range' (i + 1) (n + 1) :=
        List.range'_succ _ _ _
      rw [List.map_append, h2, hrange, List.filter_cons]
      by_cases h : (cmds i).argv 0 = none
      · simp [h]
      · have : ((cmds i).argv 0).isSome = true := by
          cases hc : (cmds i).argv 0 with
          | none => exact absurd hc h
          | some v => rfl
        simp [h, this, forked_stage]
    · intro c hc
      rcases List.mem_append.1 hc with hc | hc
      · by_cases h : (cmds i).argv 0 = none
        · simp [h] at hc
        · rw [if_neg h, List.mem_singleton] at hc
          subst hc
          obtain ⟨w0, w1⟩ := loop_turn_wiring execOk i cmds hinv
            (((sys_pipe st).2.2.lastpid : Int) + 1)
          rw [forked_stage]
          constructor
          · rw [w0]; simp [stdinFrom]
          · rw [w1]
            have : i < last := by omega
            simp [stdoutFrom, this]
      · have hst : c.stage ∈ new'.map Child.stage := List.mem_map_of_mem _ hc
        rw [h2] at hst
        have hge : i + 1 ≤ c.stage := by
          have := (List.mem_filter.1 hst).1
          rw [List.mem_range'_1] at this
          exact this.1
        obtain ⟨w0, w1⟩ := h3 c hc
        obtain ⟨-, fs, fd, fa⟩ := stage_cmds_fields cmds i c.stage inp (sys_pipe st).2.1
        constructor
        · rw [w0]
          unfold stdinFrom
          rw [fs, loop_turn_npipes, hr]
          by_cases e : c.stage = i + 1
          · rw [if_pos e, if_neg (by omega : ¬c.stage = i)]
            have : c.stage - i - 1 = 0 := by omega
            rw [this, Nat.add_zero]
          · rw [if_neg e, if_neg (by omega : ¬c.stage = i)]
            have : st.npipes + 1 + (c.stage - (i + 1) - 1) = st.npipes + (c.stage - i - 1) := by
              omega
            rw [this]
        · rw [w1]
          unfold stdoutFrom
          rw [fd, loop_turn_npipes, dst_flags_congr _ _ fa]
          have : st.npipes + 1 + (c.stage - (i + 1)) = st.npipes + (c.stage - i) := by omega
          rw [this]

/-- The stages for which the orchestrator forks a child, from a turn of the loop
to the end of `run_commands`: those whose `argv[0]` is not `NULL`, whatever the
descriptors of the orchestrator are. -/
theorem run_children_stages (execOk : CString → Bool) (last : Nat) :
    ∀ (n i : Nat) (inp : Int) (cmds : Nat → command) (st : Proc), i + n = last →
      ∃ new, (run_last execOk last (run_loop execOk n i inp cmds st).1
          (run_loop execOk n i inp cmds st).2.1
          (run_loop execOk n i inp cmds st).2.2).2.children = st.children ++ new ∧
        new.map Child.stage =
          (List.range' i (n + 1)).filter (fun j => ((cmds j).argv 0).isSome) := by
  intro n
  induction n with
  | zero =>
    intro i inp cmds st hlast
    simp only [Nat.add_zero] at hlast
    subst hlast
    refine ⟨_, run_last_children execOk i inp cmds st, ?_⟩
    by_cases h : (cmds i).argv 0 = none
    · simp [h, List.range'_one]
    · have : ((cmds i).argv 0).isSome = true := by
        cases hc : (cmds i).argv 0 with
        | none => exact absurd hc h
        | some v => rfl
      simp [h, this, forked_stage]
  | succ n ih =>
    intro i inp cmds st hlast
    rw [run_loop_succ]
    obtain ⟨new', h1, h2⟩ := ih (i + 1) (sys_pipe st).1
      (stage_cmds cmds i inp (sys_pipe st).2.1) (loop_turn execOk i inp cmds st) (by omega)
    have hargv : ∀ j, ((stage_cmds cmds i inp (sys_pipe st).2.1 j).argv 0).isSome =
        ((cmds j).argv 0).isSome := fun j => by
      rw [(stage_cmds_fields cmds i j inp (sys_pipe st).2.1).1]
    simp only [hargv] at h2
    refine ⟨(if (cmds i).argv 0 = none then []
        else [forked (stage_cmds cmds i inp (sys_pipe st).2.1) i (sys_pipe st).1 execOk
          (sys_pipe st).2.2 (((sys_pipe st).2.2.lastpid : Int) + 1)]) ++ new', ?_, ?_⟩
    · rw [h1, loop_turn_children, List.append_assoc]
    · have hrange : List.range' i (n + 1 + 1) = i :: List.range' (i + 1) (n + 1) :=
        List.range'_succ _ _ _
      rw [List.map_append, h2, hrange, List.filter_cons]
      by_cases h : (cmds i).argv 0 = none
      · simp [h]
      · have : ((cmds i).argv 0).isSome = true := by
          cases hc : (cmds i).argv 0 with
          | none => exact absurd hc h
          | some v => rfl
        simp [h, this, forked_stage]

/-- The calls `close` of the orchestrator never name descriptor 0 or 1. -/
theorem orchestrated_no_close : ∀ (n : Nat) (inp : Int) (tr : List Event),
    Orchestrated n inp tr → inp ≠ 1 → Event.close 0 ∉ tr ∧ Event.close 1 ∉ tr := by
  intro n
  induction n with
  | zero =>
    intro inp tr h hinp
    obtain ⟨launch, wait, hl, hw, rfl⟩ := h
    have hcl : Event.close 0 ∉ closeUnlessStdin inp ∧ Event.close 1 ∉ closeUnlessStdin inp := by
      unfold closeUnlessStdin STDIN_FILENO
      split_ifs with h
      · simp only [List.mem_singleton, Event.close.injEq]
        exact ⟨fun e => h e.symm, fun e => hinp e.symm⟩
      · simp
    rcases hl with rfl | ⟨pid, rfl⟩ <;> rcases hw with rfl | ⟨pid', rfl⟩ <;>
      simp [hcl.1, hcl.2]
  | succ n ih =>
    intro inp tr h hinp
    obtain ⟨r, w, launch, rest, hl, r0, r1, w0, w1, rfl, hrest⟩ := h
    obtain ⟨i0, i1⟩ := ih r rest hrest r1
    have hcl : Event.close 0 ∉ closeUnlessStdin inp ∧ Event.close 1 ∉ closeUnlessStdin inp := by
      unfold closeUnlessStdin STDIN_FILENO
      split_ifs with h
      · simp only [List.mem_singleton, Event.close.injEq]
        exact ⟨fun e => h e.symm, fun e => hinp e.symm⟩
      · simp
    rcases hl with rfl | ⟨pid, rfl⟩ <;>
      simp [hcl.1, hcl.2, i0, i1, Ne.symm w0, Ne.symm w1]

theorem spaceSplit_spaces (s : CString) (h : ∀ c ∈ s, c = ' ') : spaceSplit s = [] := by
  induction s with
  | nil => exact spaceSplit_nil
  | cons c s ih =>
    have hc : c = ' ' := h c (List.mem_cons_self _ _)
    subst hc
    rw [spaceSplit_space]
    exact ih (fun c hc => h c (List.mem_cons_of_mem _ hc))

theorem parsed_argv0 (seg : List Item) (c : command) (h : Parsed seg c) :
    (c.argv 0 = none ↔ c.argc = 0) ∧ (c.argc = 0 ↔ stageArgs seg = []) := by
  obtain ⟨⟨h1, h2, -⟩, hterm⟩ := h
  constructor
  · constructor
    · intro h0
      by_contra hne
      have hpos : 0 < c.argc := Nat.pos_of_ne_zero hne
      have := h2 0 hpos
      rw [h0, List.getElem?_eq_getElem (h1 ▸ hpos)] at this
      simp at this
    · intro h0
      rw [h0] at hterm
      exact hterm
  · rw [h1]
    exact List.length_eq_zero

/-! ## The parser: claims -/

/-- C1 (amended).  For every command line that contains no operator token
(`<`, `>`, `>>`, `|`) and has fewer than `MAXARGS` tokens, `parse` returns 1 and
the arguments `argv[0..argc)` of the single stage are, in order, the tokens of
the line, a token being a maximal run of characters other than the space
character; `argv[argc]` is `NULL`. -/
theorem parse_no_operators (cmdline : CString) (cmds : Nat → command)
    (hops : ∀ op ∈ operators, op ∉ spaceSplit cmdline)
    (hlen : (spaceSplit cmdline).length < MAXARGS) :
    ∃ cmds', parse cmdline cmds = some (1, cmds') ∧
      (cmds' 0).argc = (spaceSplit cmdline).length ∧
      arguments (cmds' 0) = (spaceSplit cmdline).map some ∧
      (cmds' 0).argv (cmds' 0).argc = none := by
  have hits := items_words (spaceSplit cmdline) hops
  have hst : stages ((spaceSplit cmdline).map Item.word) = [(spaceSplit cmdline).map Item.word] :=
    stages_single _ (by simp)
  have hlim : withinLimits ((spaceSplit cmdline).map Item.word) := by
    refine ⟨by rw [hst]; simp [MAXCMDS], ?_, ?_, ?_⟩
    · intro seg hseg
      rw [hst, List.mem_singleton] at hseg
      rw [hseg, stageArgs_words]
      exact hlen
    · intro p hp
      simp [List.mem_filterMap, Item.source?] at hp
    · intro p hp
      simp [List.mem_filterMap, Item.destination?] at hp
  obtain ⟨cmds', h1, h2⟩ := parse_within_limits cmdline cmds _ hits hlim
  rw [hst] at h1 h2
  obtain ⟨hr, hterm⟩ := h2 0 ((spaceSplit cmdline).map Item.word) rfl
  refine ⟨cmds', by simpa using h1, ?_, ?_, hterm⟩
  · rw [hr.1, stageArgs_words]
  · rw [arguments_of_reads _ _ hr, stageArgs_words]

/-- C1, an instance: the line `ls -l  foo`. -/
theorem parse_no_operators_witness :
    ∃ cmds', parse "ls -l  foo".toList staleCmds = some (1, cmds') ∧
      (cmds' 0).argc = (spaceSplit "ls -l  foo".toList).length ∧
      arguments (cmds' 0) = (spaceSplit "ls -l  foo".toList).map some ∧
      (cmds' 0).argv (cmds' 0).argc = none :=
  parse_no_operators "ls -l  foo".toList staleCmds (by decide) (by decide)

set_option maxRecDepth 100000 in
/-- C1 as stated fails.  A line of 65 words without operators (130 characters)
is parsed into one stage of 64 arguments, not 65; and on the line `a<TAB>b`, whose
whitespace-separated tokens are `a` and `b`, the single argument is `a<TAB>b`. -/
theorem parse_no_operators_counterexample :
    ((∀ op ∈ operators, op ∉ spaceSplit (manyWords 65)) ∧
      (spaceSplit (manyWords 65)).length = 65 ∧
      (parse (manyWords 65) staleCmds).map (fun r => (r.1, (r.2 0).argc)) = some (1, 64)) ∧
    ((∀ op ∈ operators, op ∉ whitespaceSplit ['a', '\t', 'b']) ∧
      whitespaceSplit ['a', '\t', 'b'] = [['a'], ['b']] ∧
      (parse ['a', '\t', 'b'] staleCmds).map (fun r => (r.1, arguments (r.2 0))) =
        some (1, [some ['a', '\t', 'b']])) := by
  decide

/-- C2 (amended).  For every command line in which every redirection operator
has an operand, which stays within the limits of the buffers, and which has
exactly `k` tokens `|` that are not the operand of a redirection operator,
`parse` returns `k + 1 ≤ MAXCMDS`, and the arguments of stage `i` are exactly
the words between the `i`-th and the `(i+1)`-th of these pipe operators, in
order, redirection operators and their operands removed; empty stages
included. -/
theorem parse_pipeline (cmdline : CString) (cmds : Nat → command) (its : List Item) (k : Nat)
    (hits : items (spaceSplit cmdline) = some its) (hk : its.count Item.pipe = k)
    (hlim : withinLimits its) :
    ∃ cmds', parse cmdline cmds = some ((k : Int) + 1, cmds') ∧ k + 1 ≤ MAXCMDS ∧
      (stages its).length = k + 1 ∧
      ∀ i seg, (stages its)[i]? = some seg →
        arguments (cmds' i) = (stageArgs seg).map some ∧
        (cmds' i).argv (cmds' i).argc = none := by
  obtain ⟨cmds', h1, h2⟩ := parse_within_limits cmdline cmds its hits hlim
  have hlen : (stages its).length = k + 1 := by rw [length_stages, hk]
  refine ⟨cmds', ?_, ?_, hlen, ?_⟩
  · rw [h1, hlen]; push_cast; rfl
  · rw [← hlen]; exact hlim.1
  · intro i seg hi
    exact ⟨arguments_of_reads _ _ (h2 i seg hi).1, (h2 i seg hi).2⟩

/-- C2, an instance: the line `cat < in | grep -v x | wc > out`. -/
theorem parse_pipeline_witness :
    ∃ cmds', parse "cat < in | grep -v x | wc > out".toList staleCmds =
        some (((2 : Nat) : Int) + 1, cmds') ∧ 2 + 1 ≤ MAXCMDS ∧
      (stages [Item.word "cat".toList, Item.source "in".toList, Item.pipe,
        Item.word "grep".toList, Item.word "-v".toList, Item.word "x".toList, Item.pipe,
        Item.word "wc".toList, Item.destination "out".toList false]).length = 2 + 1 ∧
      ∀ i seg, (stages [Item.word "cat".toList, Item.source "in".toList, Item.pipe,
        Item.word "grep".toList, Item.word "-v".toList, Item.word "x".toList, Item.pipe,
        Item.word "wc".toList, Item.destination "out".toList false])[i]? = some seg →
        arguments (cmds' i) = (stageArgs seg).map some ∧
        (cmds' i).argv (cmds' i).argc = none :=
  parse_pipeline "cat < in | grep -v x | wc > out".toList staleCmds _ 2 (by decide) (by decide)
    (by decide)

set_option maxRecDepth 100000 in
/-- C2 as stated fails.  The line `a > | b` has exactly one token `|` and no
empty segment, yet `parse` returns 1: the `|` is taken as the operand of `>`,
and the single stage has the arguments `a` and `b`.  And on a line of 64 words
followed by `| b` the loop stops at the 64th word: `parse` returns 1, not 2. -/
theorem parse_pipeline_counterexample :
    ((spaceSplit "a > | b".toList).count tokPIPE = 1 ∧
      (parse "a > | b".toList staleCmds).map
          (fun r => (r.1, arguments (r.2 0), (r.2 0).dstfile)) =
        some (1, [some "a".toList, some "b".toList], "|".toList)) ∧
    ((spaceSplit (manyWords 64 ++ "| b".toList)).count tokPIPE = 1 ∧
      (parse (manyWords 64 ++ "| b".toList) staleCmds).map (fun r => (r.1, (r.2 0).argc)) =
        some (1, 64)) := by
  decide

/-- C4 (amended).  For every command line in which every redirection operator
has an operand and which stays within the limits of the buffers, `parse`
succeeds and in every stage the source path is the operand of the last `<` of
the stage (empty if none), the destination path is the operand of the last `>`
or `>>` of the stage (empty if none), and the append flag is true if and only if
some `>>` occurs in the stage; both paths fit their buffers. -/
theorem parse_redirections (cmdline : CString) (cmds : Nat → command) (its : List Item)
    (hits : items (spaceSplit cmdline) = some its) (hlim : withinLimits its) :
    ∃ n cmds', parse cmdline cmds = some (n, cmds') ∧ n ≠ -1 ∧
      ∀ i seg, (stages its)[i]? = some seg →
        (cmds' i).srcfile = stageSource seg ∧
        (cmds' i).dstfile = stageDest seg ∧
        ((cmds' i).append = true ↔ ∃ p, Item.destination p true ∈ seg) ∧
        (cmds' i).srcfile.length < MAXFNAME ∧ (cmds' i).dstfile.length < MAXFNAME := by
  obtain ⟨cmds', h1, h2⟩ := parse_within_limits cmdline cmds its hits hlim
  refine ⟨_, cmds', h1, by omega, ?_⟩
  intro i seg hi
  obtain ⟨⟨-, -, h3, h4, h5⟩, -⟩ := h2 i seg hi
  have hmem : seg ∈ stages its := List.getElem?_mem hi
  refine ⟨h3, h4, ?_, ?_, ?_⟩
  · rw [h5]; exact stageAnyAppend_iff seg
  · rw [h3]; exact stageSource_length its seg hmem hlim.2.2.1
  · rw [h4]; exact stageDest_length its seg hmem hlim.2.2.2

/-- C4, an instance: the line `sort < a < b >> c > d | tee > e`. -/
theorem parse_redirections_witness :
    ∃ n cmds', parse "sort < a < b >> c > d | tee > e".toList staleCmds = some (n, cmds') ∧
      n ≠ -1 ∧
      ∀ i seg, (stages [Item.word "sort".toList, Item.source "a".toList,
          Item.source "b".toList, Item.destination "c".toList true,
          Item.destination "d".toList false, Item.pipe, Item.word "tee".toList,
          Item.destination "e".toList false])[i]? = some seg →
        (cmds' i).srcfile = stageSource seg ∧
        (cmds' i).dstfile = stageDest seg ∧
        ((cmds' i).append = true ↔ ∃ p, Item.destination p true ∈ seg) ∧
        (cmds' i).srcfile.length < MAXFNAME ∧ (cmds' i).dstfile.length < MAXFNAME :=
  parse_redirections "sort < a < b >> c > d | tee > e".toList staleCmds _ (by decide) (by decide)

set_option maxRecDepth 100000 in
/-- C4 as stated fails.  On the line `cmd >> a > b` the last destination
operator of the stage is `>`, and `parse` leaves the destination `b` with the
append flag true.  And on a line of 64 words followed by `< f`, which `parse`
parses with success, the loop stops at the 64th word and the source path stays
empty. -/
theorem parse_redirections_counterexample :
    ((items (spaceSplit "cmd >> a > b".toList)).map (fun l => (stages l).map stageLastAppend) =
        some [false] ∧
      (parse "cmd >> a > b".toList staleCmds).map
          (fun r => (r.1, (r.2 0).dstfile, (r.2 0).append)) =
        some (1, "b".toList, true)) ∧
    ((items (spaceSplit (manyWords 64 ++ "< f".toList))).map
          (fun l => (stages l).map stageSource) = some ["f".toList] ∧
      (parse (manyWords 64 ++ "< f".toList) staleCmds).map (fun r => (r.1, (r.2 0).srcfile)) =
        some (1, [])) := by
  decide

/-- C3 (amended).  For every line that consists of a command line in which every
redirection operator has an operand and which stays within the limits of the
buffers, followed by one more redirection operator as last token, `parse`
returns -1, and the driver, when `fgets` has stored that line followed by one
more character, does not call `run_commands`: it exits with status 0 if the end
of the input was met, and else prints the diagnostic and goes on with the next
turn.  For every line in which every redirection operator has an operand and
which stays within the limits, `parse` returns the number of stages, not -1.  A
line whose last token is not a redirection operator is of the second kind. -/
theorem parse_missing_operand (cmdline : CString) (cmds : Nat → command)
    (execOk : CString → Bool) (st : Proc) (c : Char) :
    (∀ toks op its, spaceSplit cmdline = toks ++ [op] → op ∈ redirectionOperators →
      items toks = some its → withinLimits its →
      parse_ret cmdline cmds = some (-1) ∧
      ∀ (before : CString) (ferror feof : Bool),
        main_turn execOk before
            { stored := some (cmdline ++ [c]), ferror := ferror, feof := feof } cmds st =
          some (if feof = true then Turn.exited 0 else Turn.parse_failed)) ∧
    (∀ its, items (spaceSplit cmdline) = some its → withinLimits its →
      parse_ret cmdline cmds = some ((stages its).length : Int) ∧
      parse_ret cmdline cmds ≠ some (-1)) ∧
    ((∀ op ∈ redirectionOperators, (spaceSplit cmdline).getLast? ≠ some op) →
      ∃ its, items (spaceSplit cmdline) = some its) := by
  refine ⟨?_, ?_, ?_⟩
  · intro toks op its hsplit hop hits hlim
    have h := parse_toks_dangling _ toks rfl op its [] (store cmds 0 (init_cmd (cmds 0))) 0 hop
      hits (by simp) (by rw [store_same]; simp [init_cmd, stageArgs]) (by simpa using hlim.2.1)
    rw [← hsplit] at h
    refine ⟨by rw [parse_ret_eq, h], ?_⟩
    intro before ferror feof
    have hne : cmdline ++ [c] ≠ [] := by simp
    cases feof with
    | true => simp [main_turn]
    | false =>
      simp only [main_turn, Option.getD_some, if_neg hne, List.dropLast_concat, parse_eq]
      rw [if_pos h]
      simp
  · intro its hits hlim
    obtain ⟨cmds', h1, -⟩ := parse_within_limits cmdline cmds its hits hlim
    have hne : ((stages its).length : Int) ≠ -1 := by omega
    exact ⟨by simp [parse_ret, h1], by simp [parse_ret, h1, hne]⟩
  · exact items_isSome_of_getLast _ _ rfl

/-- C3, an instance: the line `sort < in >`, stored with its newline, and the
line `sort < in`. -/
theorem parse_missing_operand_witness :
    (parse_ret "sort < in >".toList staleCmds = some (-1) ∧
      ∀ (before : CString) (ferror feof : Bool),
        main_turn (fun _ => true) before
            { stored := some ("sort < in >".toList ++ ['\n']), ferror := ferror, feof := feof }
            staleCmds freshShell =
          some (if feof = true then Turn.exited 0 else Turn.parse_failed)) ∧
    (parse_ret "sort < in".toList staleCmds =
        some ((stages [Item.word "sort".toList, Item.source "in".toList]).length : Int) ∧
      parse_ret "sort < in".toList staleCmds ≠ some (-1)) ∧
    (∃ its, items (spaceSplit "sort < in".toList) = some its) :=
  ⟨(parse_missing_operand "sort < in >".toList staleCmds (fun _ => true) freshShell '\n').1
      ["sort".toList, tokLT, "in".toList] tokGT
      [Item.word "sort".toList, Item.source "in".toList] (by decide) (by decide) (by decide)
      (by decide),
   (parse_missing_operand "sort < in".toList staleCmds (fun _ => true) freshShell '\n').2.1
      [Item.word "sort".toList, Item.source "in".toList] (by decide) (by decide),
   (parse_missing_operand "sort < in".toList staleCmds (fun _ => true) freshShell '\n').2.2
      (by decide)⟩

set_option maxRecDepth 100000 in
/-- C3 as stated fails.  On the line `cat < <` the last token is a redirection
operator followed by no token, yet `parse` returns 1: that token is the operand
of the first `<`.  And on a line of 64 words followed by `<` the loop stops at
the 64th word, before it reads the operator: `parse` returns 1. -/
theorem parse_missing_operand_counterexample :
    ((spaceSplit "cat < <".toList).getLast? = some tokLT ∧
      (parse "cat < <".toList staleCmds).map (fun r => (r.1, (r.2 0).srcfile)) =
        some (1, tokLT)) ∧
    ((spaceSplit (manyWords 64 ++ ['<'])).getLast? = some tokLT ∧
      parse_ret (manyWords 64 ++ ['<']) staleCmds = some 1) := by
  decide

/-! ## The orchestrator: claims -/

/-- C5.  For every pipeline of `ncmds ≥ 1` stages whose `argv[0]` is not `NULL`,
run by an orchestrator whose descriptors 0 and 1 are open, `pipe` and `open`
succeeding: one child is forked per stage, in order; when `redirect` has run,
descriptor 0 of the child of stage `i` refers to the source file of the stage if
one is set, else to the standard input of the orchestrator for `i = 0` and to the
read end of the pipe created for stage `i - 1` for `i > 0`; descriptor 1 refers
to the destination file of the stage if one is set, else to the write end of the
pipe created for stage `i` when `i < ncmds - 1` and to the standard output of the
orchestrator when `i = ncmds - 1`.  Exactly `ncmds - 1` pipes are created. -/
theorem run_commands_wiring (execOk : CString → Bool) (cmds : Nat → command) (ncmds : Nat)
    (st : Proc) (hn : 1 ≤ ncmds) (hargs : ∀ i, i < ncmds → (cmds i).argv 0 ≠ none)
    (h0 : lookup st.fds STDIN_FILENO ≠ none) (h1 : lookup st.fds STDOUT_FILENO ≠ none) :
    ∃ new, (run_commands execOk cmds ncmds st).2.children = st.children ++ new ∧
      new.map Child.stage = List.range ncmds ∧
      (∀ c ∈ new,
        lookup c.fds STDIN_FILENO = expectedStdin cmds st c.stage ∧
        lookup c.fds STDOUT_FILENO = expectedStdout cmds st ncmds c.stage) ∧
      (run_commands execOk cmds ncmds st).2.npipes = st.npipes + (ncmds - 1) := by
  have hinv := loopInv_entry st h0 h1
  obtain ⟨new, c1, c2, c3⟩ := run_children execOk (lookup st.fds) (ncmds - 1) (ncmds - 1) 0
    STDIN_FILENO cmds st hinv (by omega)
  obtain ⟨i1, i2, -⟩ := run_loop_inv execOk (lookup st.fds) (ncmds - 1) 0 STDIN_FILENO cmds st
    hinv
  have hall : (List.range' 0 (ncmds - 1 + 1)).filter (fun j => ((cmds j).argv 0).isSome) =
      List.range ncmds := by
    rw [List.range_eq_range', show ncmds - 1 + 1 = ncmds by omega]
    apply List.filter_eq_self.2
    intro j hj
    rw [List.mem_range'_1] at hj
    cases hc : (cmds j).argv 0 with
    | none => exact absurd hc (hargs j (by omega))
    | some v => rfl
  rw [hall] at c2
  refine ⟨new, by rw [run_commands_eq]; exact c1, c2, ?_, ?_⟩
  · intro c hc
    obtain ⟨w0, w1⟩ := c3 c hc
    have hlt : c.stage < ncmds := by
      have : c.stage ∈ new.map Child.stage := List.mem_map_of_mem _ hc
      rw [c2] at this
      exact List.mem_range.1 this
    constructor
    · rw [show STDIN_FILENO = (0 : Int) from rfl, w0]
      simp only [stdinFrom, expectedStdin, STDIN_FILENO, Nat.sub_zero]
    · rw [show STDOUT_FILENO = (1 : Int) from rfl, w1]
      simp only [stdoutFrom, expectedStdout, STDOUT_FILENO, Nat.sub_zero]
      have : (c.stage < ncmds - 1) ↔ (c.stage + 1 < ncmds) := by omega
      simp only [this]
  · rw [run_commands_eq, run_last_eq]
    simp only
    split_ifs <;> simp only [sys_waitpid, try_close_npipes, run_command_npipes, i2]

/-- C5, an instance: the pipeline `cat < in | grep x | wc > out` run by a shell
with descriptors 0, 1 and 2 open. -/
theorem run_commands_wiring_witness :
    ∃ new, (run_commands (fun _ => true) sampleCmds 3 freshShell).2.children =
        freshShell.children ++ new ∧
      new.map Child.stage = List.range 3 ∧
      (∀ c ∈ new,
        lookup c.fds STDIN_FILENO = expectedStdin sampleCmds freshShell c.stage ∧
        lookup c.fds STDOUT_FILENO = expectedStdout sampleCmds freshShell 3 c.stage) ∧
      (run_commands (fun _ => true) sampleCmds 3 freshShell).2.npipes =
        freshShell.npipes + (3 - 1) :=
  run_commands_wiring (fun _ => true) sampleCmds 3 freshShell (by decide) (by decide)
    (by decide) (by decide)

/-- C7.  No descriptor leak in the orchestrating process: for every pipeline of
`ncmds ≥ 1` stages (stages without arguments and stages with redirections
included), run by an orchestrator whose descriptors 0 and 1 are open (so that
`pipe` returns descriptors other than 0 and 1), the descriptors of the
orchestrator after `run_commands` are those before the call; its system calls
have the shape `Orchestrated`: the write end of each pipe is closed right after
the stage is launched, the read end after the next stage is launched; and
descriptors 0 and 1 are never closed. -/
theorem run_commands_no_leak (execOk : CString → Bool) (cmds : Nat → command) (ncmds : Nat)
    (st : Proc) (hn : 1 ≤ ncmds)
    (h0 : lookup st.fds STDIN_FILENO ≠ none) (h1 : lookup st.fds STDOUT_FILENO ≠ none) :
    (∀ fd, lookup (run_commands execOk cmds ncmds st).2.fds fd = lookup st.fds fd) ∧
    ∃ tr, (run_commands execOk cmds ncmds st).2.trace = st.trace ++ tr ∧
      Orchestrated (ncmds - 1) STDIN_FILENO tr ∧
      Event.close STDIN_FILENO ∉ tr ∧ Event.close STDOUT_FILENO ∉ tr := by
  have _ := hn
  have hinv := loopInv_entry st h0 h1
  obtain ⟨i1, -, -⟩ := run_loop_inv execOk (lookup st.fds) (ncmds - 1) 0 STDIN_FILENO cmds st
    hinv
  obtain ⟨tr, t1, t2⟩ := run_trace execOk (lookup st.fds) (ncmds - 1) (ncmds - 1) 0
    STDIN_FILENO cmds st hinv
  refine ⟨fun fd => ?_, tr, by rw [run_commands_eq]; exact t1, t2, ?_⟩
  · rw [run_commands_eq]
    exact run_last_restores execOk (ncmds - 1) _ i1 fd
  · exact orchestrated_no_close _ _ _ t2 (by decide)

/-- C7, an instance: the pipeline `cat < in | grep x | wc > out` run by a shell
with descriptors 0, 1 and 2 open. -/
theorem run_commands_no_leak_witness :
    (∀ fd, lookup (run_commands (fun _ => true) sampleCmds 3 freshShell).2.fds fd =
      lookup freshShell.fds fd) ∧
    ∃ tr, (run_commands (fun _ => true) sampleCmds 3 freshShell).2.trace =
        freshShell.trace ++ tr ∧
      Orchestrated (3 - 1) STDIN_FILENO tr ∧
      Event.close STDIN_FILENO ∉ tr ∧ Event.close STDOUT_FILENO ∉ tr :=
  run_commands_no_leak (fun _ => true) sampleCmds 3 freshShell (by decide) (by decide)
    (by decide)

/-- C8 (amended).  For every pipeline of `ncmds ≥ 1` stages `run_commands` forks
one child for each stage whose `argv[0]` is not `NULL`, in order, and none for
the others; in a stage left by `parse` on a command line within the limits
`argv[0]` is `NULL` exactly when the stage has no argument.  Every line that
consists of space characters only is parsed into a single stage without
arguments, and running it leaves the process as it was: no system call, no
child. -/
theorem run_commands_forks (execOk : CString → Bool) (cmds : Nat → command) (ncmds : Nat)
    (st : Proc) (cmdline : CString) (hn : 1 ≤ ncmds) :
    (∃ new, (run_commands execOk cmds ncmds st).2.children = st.children ++ new ∧
      new.map Child.stage =
        (List.range ncmds).filter (fun i => ((cmds i).argv 0).isSome)) ∧
    (∀ its, items (spaceSplit cmdline) = some its → withinLimits its →
      ∃ n cmds', parse cmdline cmds = some (n, cmds') ∧
        ∀ i seg, (stages its)[i]? = some seg →
          ((cmds' i).argv 0 = none ↔ (cmds' i).argc = 0) ∧
          ((cmds' i).argc = 0 ↔ stageArgs seg = [])) ∧
    ((∀ c ∈ cmdline, c = ' ') →
      ∃ cmds', parse cmdline cmds = some (1, cmds') ∧
        (cmds' 0).argc = 0 ∧ (cmds' 0).argv 0 = none ∧
        (run_commands execOk cmds' 1 st).2 = st) := by
  refine ⟨?_, ?_, ?_⟩
  · obtain ⟨new, c1, c2⟩ := run_children_stages execOk (ncmds - 1) (ncmds - 1) 0 STDIN_FILENO
      cmds st (by omega)
    refine ⟨new, by rw [run_commands_eq]; exact c1, ?_⟩
    rw [c2, List.range_eq_range', show ncmds - 1 + 1 = ncmds by omega]
  · intro its hits hlim
    obtain ⟨cmds', p1, p2⟩ := parse_within_limits cmdline cmds its hits hlim
    exact ⟨_, cmds', p1, fun i seg hi => parsed_argv0 seg (cmds' i) (p2 i seg hi)⟩
  · intro hsp
    have hsplit := spaceSplit_spaces cmdline hsp
    have hp : parse cmdline cmds =
        some (parse_finish (store cmds 0 (init_cmd (cmds 0))) 0) := by
      rw [parse_eq, hsplit]; rfl
    have hrun : ∀ c' : Nat → command, (c' 0).argv 0 = none →
        run_commands execOk c' 1 st = (stage_cmds c' 0 STDIN_FILENO STDOUT_FILENO, st) := by
      intro c' hc'
      rw [run_commands_eq, run_last_eq]
      have hnone : (stage_cmds (run_loop execOk (1 - 1) 0 STDIN_FILENO c' st).2.1 (1 - 1)
          (run_loop execOk (1 - 1) 0 STDIN_FILENO c' st).1 STDOUT_FILENO (1 - 1)).argv 0 =
          none := by
        rw [(stage_cmds_fields _ _ _ _ _).1]; exact hc'
      rw [run_command_empty _ _ _ _ _ hnone]
      rfl
    have harg : ((parse_finish (store cmds 0 (init_cmd (cmds 0))) 0).2 0).argv 0 = none := by
      simp [parse_finish, store, init_cmd]
    refine ⟨(parse_finish (store cmds 0 (init_cmd (cmds 0))) 0).2, hp, ?_, harg, ?_⟩
    · simp [parse_finish, store, init_cmd]
    · rw [hrun _ harg]

/-- C8, an instance: the pipeline `cat < in | grep x | wc > out`, the line
`ls | | wc`, and the line of three spaces. -/
theorem run_commands_forks_witness :
    (∃ new, (run_commands (fun _ => true) sampleCmds 3 freshShell).2.children =
        freshShell.children ++ new ∧
      new.map Child.stage =
        (List.range 3).filter (fun i => ((sampleCmds i).argv 0).isSome)) ∧
    (∃ n cmds', parse "ls | | wc".toList staleCmds = some (n, cmds') ∧
        ∀ i seg, (stages [Item.word "ls".toList, Item.pipe, Item.pipe,
            Item.word "wc".toList])[i]? = some seg →
          ((cmds' i).argv 0 = none ↔ (cmds' i).argc = 0) ∧
          ((cmds' i).argc = 0 ↔ stageArgs seg = [])) ∧
    (∃ cmds', parse [' ', ' ', ' '] staleCmds = some (1, cmds') ∧
        (cmds' 0).argc = 0 ∧ (cmds' 0).argv 0 = none ∧
        (run_commands (fun _ => true) cmds' 1 freshShell).2 = freshShell) :=
  ⟨(run_commands_forks (fun _ => true) sampleCmds 3 freshShell [] (by decide)).1,
   (run_commands_forks (fun _ => true) staleCmds 1 freshShell "ls | | wc".toList
     (by decide)).2.1 _ (by decide) (by decide),
   (run_commands_forks (fun _ => true) staleCmds 1 freshShell [' ', ' ', ' '] (by decide)).2.2
     (by decide)⟩

/-- C8 as stated fails.  The line that consists of one tab, a whitespace
character, is parsed into a stage with one argument, and running it forks a
child and waits for it. -/
theorem run_commands_forks_counterexample :
    (['\t'].all Char.isWhitespace = true ∧ whitespaceSplit ['\t'] = []) ∧
    (parse ['\t'] staleCmds).map
        (fun r => (r.1, arguments (r.2 0),
          (run_commands (fun _ => true) r.2 r.1.toNat freshShell).2.trace)) =
      some (1, [some ['\t']], [Event.fork 101, Event.waitpid 101]) := by
  decide

/-! ## Defects -/

/-- C6, the code at a failing input.  When `execvp` fails, the child leaves
`run_command` by `return pid` with `pid = 0`: control goes back to the caller,
inside the child.  So for the line `nosuchprogram`. -/
theorem run_command_child_returns :
    (∀ (cmd : command) (closepipe : Int) (st : Proc),
      (run_command_child cmd closepipe (fun _ => false) st).2.2 = ChildEnd.returned 0) ∧
    (parse "nosuchprogram".toList staleCmds).map
        (fun r => (r.1, (run_commands (fun _ => false) r.2 r.1.toNat freshShell).2.children.map
          (fun c => (c.stage, c.pid, c.outcome)))) =
      some (1, [(0, 101, ChildEnd.returned 0)]) := by
  refine ⟨fun cmd closepipe st => ?_, by decide⟩
  simp [run_command_child]

set_option maxRecDepth 100000 in
/-- C9, the code at a failing input.  On the line of 64 pipe operators (128
characters) `parse` returns 65 and initialises the stage of index 64, beyond the
`MAXCMDS = 64` stages of the caller's array. -/
theorem parse_stage_overflow :
    MAXCMDS = 64 ∧ (manyPipes 64).length = 128 ∧ 128 ≤ MAXLINE - 1 ∧
    (staleCmds 64).argc = 7 ∧ (staleCmds 64).srcfd = 5 ∧
    (staleCmds 64).srcfile = "old".toList ∧
    (parse (manyPipes 64) staleCmds).map
        (fun r => (r.1, (r.2 64).argc, (r.2 64).srcfd, (r.2 64).srcfile, (r.2 64).argv 0)) =
      some (65, 0, 0, [], none) := by
  decide

set_option maxRecDepth 100000 in
/-- C10, the code at a failing input.  On the line of 64 words (128 characters)
the loop of `parse` stops with `argc = 64`, and the terminating `NULL` is stored
at `argv[64]`, beyond the `MAXARGS = 64` entries of `argv`. -/
theorem parse_argv_overflow :
    MAXARGS = 64 ∧ (manyWords 64).length = 128 ∧ 128 ≤ MAXLINE - 1 ∧
    (staleCmds 0).argv 64 = some "stale".toList ∧
    (parse (manyWords 64) staleCmds).map
        (fun r => (r.1, (r.2 0).argc, (r.2 0).argv 63, (r.2 0).argv 64)) =
      some (1, 64, some ['a'], none) := by
  decide

end Pearl
